import Mathlib

/-!
Verification of the Jalali/Gregorian calendar conversion core of
`src/jalali_extension.cpp`.

The two core functions are `JalaliToGregorian` (parse a Jalali date/time
string, convert to a Gregorian composed date-time value) and
`GregorianToJalali` (convert a Gregorian composed date-time value to a
formatted Jalali string).  All integer arithmetic of the C++ source is
embedded over `Int`, with C truncated division/remainder rendered as
`Int.tdiv`/`Int.tmod`.  Fallible operations (the `InvalidInputException`
format check, `stoi` failure, and out-of-bounds `std::vector`/array
indexing, which is undefined behaviour in the source) are rendered in the
`Except` monad.  Loops of the source are compiled to structurally
recursive functions on an explicit fuel argument; in each case the fuel
is chosen so that it can never be exhausted before the loop's own exit
condition fires, so the embedded function agrees with the loop on every
input.
-/

namespace Jalali

/-- Error outcomes of the embedded fallible code: `formatError` is the
`InvalidInputException` thrown for a malformed date part, `parseError` is
the exception thrown by `stoi` when no digits can be parsed, and `oob`
marks an out-of-bounds vector/array access (undefined behaviour in C++). -/
inductive Err where
  | formatError
  | parseError
  | oob
  deriving DecidableEq

/-- Modelled from the spec: the host's composed date-time value (spec §3)
is opaque to the core beyond construction from and decomposition into its
Gregorian date components and time-of-day components; it is embedded as
the tuple of those components.  `Timestamp::FromDatetime`,
`Date::FromDate`, `Time::FromTime` and the matching decompositions
`Timestamp::GetDate`/`GetTime`, `Date::Convert`, `Time::Convert` become
record construction and field projection. -/
structure Timestamp where
  year : Int
  month : Int
  day : Int
  hour : Int
  minute : Int
  second : Int
  micros : Int
  deriving DecidableEq

/-- Checked vector/array access: `std::vector::operator[]` (and C array
indexing) with an out-of-range index is undefined behaviour in the
source; the embedding surfaces it as the error `Err.oob`. -/
def vecGet {α : Type} (l : List α) (i : Nat) : Except Err α :=
  match l.get? i with
  | some x => .ok x
  | none => .error .oob

/-- `duckdb::StringUtil::Split(str, delim)`: repeated `std::getline` on a
`stringstream`.  `getline` fails (producing nothing) exactly when the
remaining stream is empty, so the empty string splits into no parts and
a trailing delimiter does not produce a trailing empty part. -/
def splitG (d : Char) : List Char → List (List Char)
  | [] => []
  | c :: cs =>
    if c = d then [] :: splitG d cs
    else
      match splitG d cs with
      | [] => [[c]]
      | t :: ts => (c :: t) :: ts

/-- C `isspace` in the default locale: space and the characters
`\t`, `\n`, `\v`, `\f`, `\r` (codepoints 9–13), as skipped by `stoi`. -/
def isSpaceB (c : Char) : Bool := c = ' ' || (9 ≤ c.toNat && c.toNat ≤ 13)

/-- Decimal digit test used by `stoi`. -/
def isDigitB (c : Char) : Bool := 48 ≤ c.toNat && c.toNat ≤ 57

/-- Numeric value of a list of decimal digit characters, most significant
first. -/
def digitsVal (ds : List Char) : Int :=
  ds.foldl (fun a c => 10 * a + ((c.toNat : Int) - 48)) 0

/-- `std::stoi`: skip leading whitespace, read an optional sign, then the
longest prefix of decimal digits (trailing non-digit characters are
ignored); throw `std::invalid_argument` when no digits are present.  The
source stores the result in C `int`; the embedding uses unbounded `Int`
(overflow never occurs on the inputs the claims quantify over). -/
def stoi (cs : List Char) : Except Err Int :=
  let cs1 := cs.dropWhile isSpaceB
  let p : Bool × List Char :=
    match cs1 with
    | c :: r => if c = '-' then (true, r) else if c = '+' then (false, r) else (false, c :: r)
    | [] => (false, [])
  let ds := p.2.takeWhile isDigitB
  if ds.isEmpty then .error .parseError
  else .ok ((if p.1 then -1 else 1) * digitsVal ds)

/-! ### JalaliToGregorian: parsing (source lines 24–35, 94–106) -/

/-- Source lines 30–35: require exactly three `-`-separated date fields
(else the `InvalidInputException`), then `stoi` each field. -/
def parseDateFields (date_parts : List (List Char)) : Except Err (Int × Int × Int) :=
  match date_parts with
  | [p0, p1, p2] => do
    let jy ← stoi p0
    let jm ← stoi p1
    let jd ← stoi p2
    pure (jy, jm, jd)
  | _ => .error .formatError

/-- Source lines 24–35: split the input on `' '`, index part 0 (an
out-of-bounds access when the split is empty), split the date part on
`'-'` and parse the three fields. -/
def parseDateNums (cs : List Char) : Except Err (Int × Int × Int) := do
  let datetime_parts := splitG ' ' cs
  let date_part ← vecGet datetime_parts 0
  parseDateFields (splitG '-' date_part)

/-- Source lines 98–105: split the time part on `':'`; with at least two
fields the first two are hour and minute, and the third is the seconds
exactly when the field count is three; otherwise all three stay 0. -/
def parseTimeOfPart (time_part : List Char) : Except Err (Int × Int × Int) :=
  match splitG ':' time_part with
  | t0 :: t1 :: rest => do
    let hour ← stoi t0
    let minute ← stoi t1
    let second ← (match rest with
      | [t2] => stoi t2
      | _ => pure (0 : Int))
    pure (hour, minute, second)
  | _ => pure (0, 0, 0)

/-- Source lines 94–106: hour/minute/second default to 0; when a second
space-separated part exists it is parsed by `parseTimeOfPart`. -/
def parseTimeNums (cs : List Char) : Except Err (Int × Int × Int) :=
  match splitG ' ' cs with
  | _ :: time_part :: _ => parseTimeOfPart time_part
  | _ => pure (0, 0, 0)

/-! ### JalaliToGregorian: day-number arithmetic (source lines 37–91) -/

/-- Source lines 39–45: the loop `for (i = 1; i < jm; ++i)` adding 31
days for months 1–6 and 30 for later months; `fuel = (jm-1).toNat` is the
exact iteration count of the loop. -/
def jMonthSumGo : Nat → Int → Int
  | 0, _ => 0
  | k + 1, i => (if i ≤ 6 then 31 else 30) + jMonthSumGo k (i + 1)

/-- Day count contributed by the months before Jalali month `jm`. -/
def jMonthSum (jm : Int) : Int := jMonthSumGo (jm - 1).toNat 1

/-- Source lines 74–83: days of Gregorian month `gm` given the `leap`
flag. -/
def gMonthDays (leap : Bool) (gm : Int) : Int :=
  if gm = 2 then (if leap then 29 else 28)
  else if gm ≤ 7 ∧ gm.tmod 2 = 1 then 31
  else if gm ≥ 8 ∧ gm.tmod 2 = 0 then 31
  else 30

/-- Source lines 72–90: the month walk `while (true) { ... if (g_day_no <
month_days) break; ... }`.  Each iteration subtracts `month_days ≥ 28`
from a value that was `≥ month_days`, so the loop runs at most
`n.toNat + 1` times and the fuel `n.toNat + 1` used by `gMonthWalk` is
never exhausted before the break fires. -/
def gMonthWalkGo : Nat → Bool → Int → Int → Int × Int
  | 0, _, gm, n => (gm, n)
  | k + 1, leap, gm, n =>
    if n < gMonthDays leap gm then (gm, n)
    else gMonthWalkGo k leap (gm + 1) (n - gMonthDays leap gm)

/-- The month walk started at month 1, as in the source. -/
def gMonthWalk (leap : Bool) (n : Int) : Int × Int :=
  gMonthWalkGo (n.toNat + 1) leap 1 n

/-- Source lines 50–70: the year-level part of the Gregorian day-number
decomposition: the nested 400-, 100-, 4- and 1-year cycle reduction,
producing the year, the remaining day-of-year count, and the `leap`
flag. -/
def gYearSplit (g0 : Int) : Int × Int × Bool :=
  let gy0 := 1600 + 400 * (g0.tdiv 146097)
  let g1 := g0.tmod 146097
  let s :=
    if g1 ≥ 36525 then
      let g2 := g1 - 1
      let gy1 := gy0 + 100 * (g2.tdiv 36524)
      let g3 := g2.tmod 36524
      if g3 ≥ 365 then (gy1, g3 + 1, true) else (gy1, g3, false)
    else (gy0, g1, true)
  let gy2 := s.1 + 4 * (s.2.1.tdiv 1461)
  let g4 := s.2.1.tmod 1461
  if g4 ≥ 366 then (gy2 + (g4 - 1).tdiv 365, ((g4 - 1).tmod 365, false))
  else (gy2, (g4, s.2.2))

/-- Source lines 50–91: decompose a day number (days since 1600-01-01)
into a Gregorian `(year, month, day)`: the year-level cycle reduction
followed by the month walk. -/
def gregFromDayNo (g0 : Int) : Int × Int × Int :=
  let s := gYearSplit g0
  let w := gMonthWalk s.2.2 s.2.1
  (s.1, w.1, w.2 + 1)

/-- Source lines 37–48: Jalali `(year, month, day)` to the Gregorian day
number (`j_day_no + 79`), then the Gregorian decomposition. -/
def jalaliNumsToGregDate (jy0 jm jd : Int) : Int × Int × Int :=
  let jy := jy0 - 979
  let j_day_no :=
    365 * jy + (jy.tdiv 33) * 8 + ((jy.tmod 33 + 3).tdiv 4) + jMonthSum jm + (jd - 1)
  gregFromDayNo (j_day_no + 79)

/-- Source lines 22–123: `JalaliToGregorian`.  The final construction of
the composed value from the Gregorian date and resolved time-of-day
(spec §4.1 step 7) is the host's opaque composition, embedded as record
construction; `Time::FromTime` is called with zero microseconds. -/
def JalaliToGregorian (s : String) (end_of_day : Bool) : Except Err Timestamp := do
  let (jy, jm, jd) ← parseDateNums s.data
  let g := jalaliNumsToGregDate jy jm jd
  let tm ← parseTimeNums s.data
  let tm2 := if end_of_day then ((23 : Int), (59 : Int), (59 : Int)) else tm
  pure ⟨g.1, g.2.1, g.2.2, tm2.1, tm2.2.1, tm2.2.2, 0⟩

/-! ### GregorianToJalali (source lines 141–203) -/

/-- Source line 17 (and DuckDB's `Date::IsLeapYear`): the Gregorian
leap-year rule.  The C `%` is truncated remainder; its comparison with 0
agrees with `Int.tmod` for every sign of the year. -/
def IsLeapYear (year : Int) : Bool :=
  year.tmod 400 = 0 || (year.tmod 100 ≠ 0 && year.tmod 4 = 0)

/-- Source lines 151–152: the Gregorian month-length table. -/
def g_days_in_month (gy : Int) : List Int :=
  [31, if IsLeapYear gy then 29 else 28, 31, 30, 31, 30, 31, 31, 30, 31, 30, 31]

/-- Source lines 153–154: the Jalali month-length table. -/
def j_days_in_month : List Int :=
  [31, 31, 31, 31, 31, 31, 30, 30, 30, 30, 30, 29]

/-- Source lines 161–163: the loop `for (i = 0; i < gm2; ++i) g_day_no +=
g_days_in_month[i]`, with the checked array access; `fuel = gm2.toNat` is
the exact iteration count. -/
def gMonthAccGo (gy : Int) : Nat → Nat → Int → Except Err Int
  | 0, _, acc => pure acc
  | k + 1, i, acc => do
    let d ← vecGet (g_days_in_month gy) i
    gMonthAccGo gy k (i + 1) (acc + d)

/-- Source lines 179–183: the walk `while (i < 11 && j_day_no >=
j_days_in_month[i])`; the fuel 11 matches the loop bound `i < 11`, and
the index `i ≤ 10` is always within the 12-entry table. -/
def jMonthWalkGo : Nat → Nat → Int → Nat × Int
  | 0, i, n => (i, n)
  | k + 1, i, n =>
    match j_days_in_month.get? i with
    | some d => if n ≥ d then jMonthWalkGo k (i + 1) (n - d) else (i, n)
    | none => (i, n)

/-- Source lines 168–177: the year-level part of the Jalali day-number
decomposition: the 12053-day (33-year) supercycle, the 1461-day (4-year)
cycle, and the attribution of a remainder of at least 366 days to the
following common years; produces the Jalali year and the remaining
day-of-year count. -/
def jYearSplit (j0 : Int) : Int × Int :=
  let j_np := j0.tdiv 12053
  let j1 := j0.tmod 12053
  let jyA := 979 + 33 * j_np + 4 * (j1.tdiv 1461)
  let j2 := j1.tmod 1461
  if j2 ≥ 366 then (jyA + (j2 - 1).tdiv 365, (j2 - 1).tmod 365) else (jyA, j2)

/-- Source lines 146–185: Gregorian `(year, month, day)` to the Jalali
`(year, month, day)` triple that is then formatted. -/
def gregDateToJalaliNums (gy gm gd : Int) : Except Err (Int × Int × Int) := do
  let gy2 := gy - 1600
  let gm2 := gm - 1
  let gd2 := gd - 1
  let base :=
    365 * gy2 + (gy2 + 3).tdiv 4 - (gy2 + 99).tdiv 100 + (gy2 + 399).tdiv 400
  let g_day_no ← gMonthAccGo gy gm2.toNat 0 base
  let p := jYearSplit (g_day_no + gd2 - 79)
  let w := jMonthWalkGo 11 0 p.2
  pure (p.1, (w.1 : Int) + 1, w.2 + 1)

/-- Decimal digit character, codepoint `48 + d` for `d < 10`. -/
def digitChar (d : Nat) : Char := Char.ofNat (48 + d)

/-- Decimal digits of `n`, least significant first; the fuel `n` bounds
the digit count (`n` has at most `n` digits for `n ≥ 1`), so the digits
are never cut short. -/
def digitsRevGo : Nat → Nat → List Char
  | 0, _ => []
  | _ + 1, 0 => []
  | k + 1, n + 1 => digitChar ((n + 1) % 10) :: digitsRevGo k ((n + 1) / 10)

/-- Decimal representation of a natural number, as printed by `printf`. -/
def decStr (n : Nat) : List Char :=
  if n = 0 then ['0'] else (digitsRevGo n n).reverse

/-- `printf`-style `%0wd`: minus sign for negatives, then zero padding
(counting the sign against the field width `w`), then the digits. -/
def padC (w : Nat) (n : Int) : List Char :=
  let ds := decStr n.natAbs
  let sg : List Char := if n < 0 then ['-'] else []
  sg ++ List.replicate (w - (sg.length + ds.length)) '0' ++ ds

/-- Source lines 187–202: `snprintf` into a 25-byte buffer (so at most 24
characters are kept): `"%04d-%02d-%02d"` when hour, minute, second and
microseconds are all zero, otherwise `"%04d-%02d-%02d %02d:%02d:%02d"`. -/
def formatJalali (jy jm jd hour minute second micros : Int) : List Char :=
  if hour = 0 ∧ minute = 0 ∧ second = 0 ∧ micros = 0 then
    (padC 4 jy ++ ('-' :: padC 2 jm) ++ ('-' :: padC 2 jd)).take 24
  else
    (padC 4 jy ++ ('-' :: padC 2 jm) ++ ('-' :: padC 2 jd) ++
      (' ' :: padC 2 hour) ++ (':' :: padC 2 minute) ++ (':' :: padC 2 second)).take 24

/-- Source lines 141–203: `GregorianToJalali`. -/
def GregorianToJalali (t : Timestamp) : Except Err String := do
  let nums ← gregDateToJalaliNums t.year t.month t.day
  pure (String.mk (formatJalali nums.1 nums.2.1 nums.2.2 t.hour t.minute t.second t.micros))

/-! ### Validity of composed date-time values -/

/-- Length of Gregorian month `m` of year `y` (the standard table the
source's walks and tables encode). -/
def gMonthLen (y m : Int) : Int := gMonthDays (IsLeapYear y) m

/-- Modelled from the spec: a valid composed Gregorian date-time value
(spec §3): calendar-valid Gregorian date, time-of-day components in
range, and the year within the host timestamp type's representable
range of years. -/
def ValidTs (t : Timestamp) : Bool :=
  1 ≤ t.month && t.month ≤ 12 && 1 ≤ t.day && t.day ≤ gMonthLen t.year t.month &&
  -290307 ≤ t.year && t.year ≤ 294247 &&
  0 ≤ t.hour && t.hour ≤ 23 && 0 ≤ t.minute && t.minute ≤ 59 &&
  0 ≤ t.second && t.second ≤ 59 && 0 ≤ t.micros && t.micros ≤ 999999

/-- The composition `JalaliToGregorian(GregorianToJalali(t), false)` of
the round-trip property (spec §8). -/
def roundTrip (t : Timestamp) : Except Err Timestamp :=
  (GregorianToJalali t).bind (fun s => JalaliToGregorian s false)

/-- A composed value truncated to whole seconds (microseconds dropped). -/
def truncSec (t : Timestamp) : Timestamp :=
  ⟨t.year, t.month, t.day, t.hour, t.minute, t.second, 0⟩

/-- The date part of an input as the claims describe it: the substring
before the first space (the whole string when it has no space). -/
def datePartOf (cs : List Char) : List Char := cs.takeWhile (· != ' ')

/-! ### Closed forms used to state and prove the arithmetic properties -/

/-- Days from 1600-01-01 to the start of Gregorian year `1600 + y`
(closed form of the base count of source line 160, with mathematical
floor division, which agrees with the source's truncated division on the
nonnegative range). -/
def db (y : Int) : Int := 365 * y + (y + 3) / 4 - (y + 99) / 100 + (y + 399) / 400

/-- Days from the start of a Gregorian year to the start of month `m`,
common-year table. -/
def gPrefixNL (m : Int) : Int :=
  if m ≤ 1 then 0 else if m = 2 then 31 else if m = 3 then 59
  else if m = 4 then 90 else if m = 5 then 120 else if m = 6 then 151
  else if m = 7 then 181 else if m = 8 then 212 else if m = 9 then 243
  else if m = 10 then 273 else if m = 11 then 304 else 334

/-- Days from the start of a Gregorian year to the start of month `m`,
with the leap-day correction. -/
def gPrefixB (leap : Bool) (m : Int) : Int :=
  gPrefixNL m + (if leap ∧ 3 ≤ m then 1 else 0)

/-- Day number (days since 1600-01-01) of a Gregorian date: the closed
form of the count computed by source lines 156–164. -/
def gDayNo (gy gm gd : Int) : Int :=
  db (gy - 1600) + gPrefixB (IsLeapYear gy) gm + (gd - 1)

/-- Days from the Jalali epoch anchor to the start of Jalali year
`979 + y` (closed form of source line 38, with mathematical floor
division). -/
def jdb (y : Int) : Int := 365 * y + (y / 33) * 8 + (y % 33 + 3) / 4

/-- Days from the start of a Jalali year to the start of month `m`
(31-day months 1–6, 30-day months from 7 on). -/
def jPrefix (m : Int) : Int :=
  if m ≤ 7 then 31 * (m - 1) else 186 + 30 * (m - 7)

/-- The shape `YYYY-MM-DD`: exactly a zero-padded 4-digit year and
2-digit month and day, dash-separated (10 characters). -/
def dateOnlyShape (cs : List Char) : Bool :=
  match cs with
  | [y1, y2, y3, y4, s1, m1, m2, s2, d1, d2] =>
    isDigitB y1 && isDigitB y2 && isDigitB y3 && isDigitB y4 && s1 = '-' &&
    isDigitB m1 && isDigitB m2 && s2 = '-' && isDigitB d1 && isDigitB d2
  | _ => false

/-- The shape `YYYY-MM-DD HH:MM:SS`: the 10-character date shape, a
space, and 2-digit colon-separated hour, minute and second
(19 characters). -/
def dateTimeShape (cs : List Char) : Bool :=
  match cs with
  | y1 :: y2 :: y3 :: y4 :: s1 :: m1 :: m2 :: s2 :: d1 :: d2 :: rest =>
    dateOnlyShape [y1, y2, y3, y4, s1, m1, m2, s2, d1, d2] &&
    (match rest with
     | [sp, h1, h2, c1, n1, n2, c2, e1, e2] =>
       sp = ' ' && isDigitB h1 && isDigitB h2 && c1 = ':' && isDigitB n1 &&
       isDigitB n2 && c2 = ':' && isDigitB e1 && isDigitB e2
     | _ => false)
  | _ => false

end Jalali

deriving instance DecidableEq for Except

namespace Jalali

/-! ### Lemmas about the split and parse stages -/

/-- One-step unfolding of `splitG` on a non-empty list. -/
theorem splitG_cons (d c : Char) (cs : List Char) :
    splitG d (c :: cs) =
      if c = d then [] :: splitG d cs
      else
        match splitG d cs with
        | [] => [[c]]
        | t :: ts => (c :: t) :: ts := rfl

/-- The split of a non-empty list is non-empty. -/
theorem splitG_cons_ne_nil (d c : Char) (cs : List Char) : splitG d (c :: cs) ≠ [] := by
  by_cases hc : c = d
  · simp [splitG, hc]
  · simp only [splitG, if_neg hc]
    cases hsp : splitG d cs <;> simp

/-- The first part produced by the split of a non-empty list is the
prefix before the first delimiter. -/
theorem splitG_head (d : Char) : ∀ (c : Char) (cs : List Char),
    ∃ ts, splitG d (c :: cs) = ((c :: cs).takeWhile (· != d)) :: ts := by
  intro c cs
  induction cs generalizing c with
  | nil =>
    by_cases hc : c = d
    · exact ⟨splitG d [], by simp [splitG, hc]⟩
    · exact ⟨[], by simp [splitG, hc]⟩
  | cons c2 cs ih =>
    by_cases hc : c = d
    · exact ⟨splitG d (c2 :: cs), by simp [splitG_cons, hc]⟩
    · obtain ⟨ts, hts⟩ := ih c2
      have hp : (c != d) = true := by simp [hc]
      refine ⟨ts, ?_⟩
      rw [splitG_cons, if_neg hc, hts]
      simp [List.takeWhile_cons, hp]

/-- The only error `stoi` produces is the parse error. -/
theorem stoi_no_format (cs : List Char) : stoi cs ≠ .error .formatError := by
  intro h
  simp only [stoi] at h
  split at h
  · exact Err.noConfusion (Except.error.inj h)
  · exact Except.noConfusion h

/-- When the input has a time part, the time stage parses it. -/
theorem parseTime_cons (cs a tp : List Char) (rest : List (List Char))
    (h : splitG ' ' cs = a :: tp :: rest) :
    parseTimeNums cs = parseTimeOfPart tp := by
  unfold parseTimeNums; rw [h]

/-- Without a time part the time stage yields midnight. -/
theorem parseTime_notime (cs : List Char) (h : (splitG ' ' cs).length ≤ 1) :
    parseTimeNums cs = .ok (0, 0, 0) := by
  unfold parseTimeNums
  cases hsp : splitG ' ' cs with
  | nil => rfl
  | cons a l =>
    cases l with
    | nil => rfl
    | cons tp rest => rw [hsp] at h; simp at h

/-- Unfolding of the time-part parser when the colon split has at least
two fields. -/
theorem ptop_ge2 (tp t0 t1 : List Char) (r2 : List (List Char))
    (hts : splitG ':' tp = t0 :: t1 :: r2) :
    parseTimeOfPart tp = (do
      let hour ← stoi t0
      let minute ← stoi t1
      let second ← (match r2 with
        | [t2] => stoi t2
        | _ => pure (0 : Int))
      pure (hour, minute, second)) := by
  unfold parseTimeOfPart; rw [hts]

/-- A time part with fewer than two colon-separated fields is ignored. -/
theorem ptop_lt2 (tp : List Char) (h : (splitG ':' tp).length < 2) :
    parseTimeOfPart tp = .ok (0, 0, 0) := by
  unfold parseTimeOfPart
  cases hts : splitG ':' tp with
  | nil => rfl
  | cons u l =>
    cases l with
    | nil => rfl
    | cons u2 l2 =>
      rw [hts] at h
      simp only [List.length_cons] at h
      omega

/-- The date stage parses the fields of the part before the first
space. -/
theorem parseDate_cons (cs head : List Char) (ts : List (List Char))
    (h : splitG ' ' cs = head :: ts) :
    parseDateNums cs = parseDateFields (splitG '-' head) := by
  unfold parseDateNums
  rw [h]
  rfl

/-- A field list that does not have exactly three entries is rejected
with the format error. -/
theorem pdf_not3 (X : List (List Char)) (h : X.length ≠ 3) :
    parseDateFields X = .error .formatError := by
  cases X with
  | nil => rfl
  | cons a X1 =>
    cases X1 with
    | nil => rfl
    | cons b X2 =>
      cases X2 with
      | nil => rfl
      | cons c X3 =>
        cases X3 with
        | nil => exact absurd rfl h
        | cons dd X4 => rfl

/-- Unfolding of the field parser on exactly three fields. -/
theorem pdf3 (p0 p1 p2 : List Char) :
    parseDateFields [p0, p1, p2] = (do
      let jy ← stoi p0
      let jm ← stoi p1
      let jd ← stoi p2
      pure (jy, jm, jd)) := rfl

/-- A date-stage error is returned unchanged by `JalaliToGregorian`. -/
theorem J2G_date_err (s : String) (eod : Bool) (e : Err)
    (h : parseDateNums s.data = .error e) :
    JalaliToGregorian s eod = .error e := by
  unfold JalaliToGregorian; rw [h]; rfl

/-- The time stage never produces the format error: its only failures
come from `stoi`. -/
theorem parseTimeNums_no_format (cs : List Char) :
    parseTimeNums cs ≠ .error .formatError := by
  intro h
  cases hsp : splitG ' ' cs with
  | nil => rw [parseTime_notime cs (by rw [hsp]; simp)] at h; exact Except.noConfusion h
  | cons a l1 =>
    cases l1 with
    | nil => rw [parseTime_notime cs (by rw [hsp]; simp)] at h; exact Except.noConfusion h
    | cons tp rest =>
      rw [parseTime_cons cs a tp rest hsp] at h
      cases hts : splitG ':' tp with
      | nil => rw [ptop_lt2 tp (by rw [hts]; simp)] at h; exact Except.noConfusion h
      | cons t0 l2 =>
        cases l2 with
        | nil => rw [ptop_lt2 tp (by rw [hts]; simp)] at h; exact Except.noConfusion h
        | cons t1 r2 =>
          rw [ptop_ge2 tp t0 t1 r2 hts] at h
          cases h0 : stoi t0 with
          | error e =>
            rw [h0] at h
            simp [Bind.bind, Except.bind] at h
            exact stoi_no_format t0 (by rw [h0, h])
          | ok v0 =>
            rw [h0] at h
            cases h1 : stoi t1 with
            | error e =>
              rw [h1] at h
              simp [Bind.bind, Except.bind] at h
              exact stoi_no_format t1 (by rw [h1, h])
            | ok v1 =>
              rw [h1] at h
              cases hr : r2 with
              | nil => rw [hr] at h; simp [Bind.bind, Except.bind, Pure.pure, Except.pure] at h
              | cons q l3 =>
                cases l3 with
                | nil =>
                  rw [hr] at h
                  simp only [Bind.bind, Except.bind] at h
                  cases h2 : stoi q with
                  | error e =>
                    rw [h2] at h
                    simp [Bind.bind, Except.bind] at h
                    exact stoi_no_format q (by rw [h2, h])
                  | ok v2 =>
                    rw [h2] at h
                    simp [Bind.bind, Except.bind, Pure.pure, Except.pure] at h
                | cons q2 l4 =>
                  rw [hr] at h
                  simp [Bind.bind, Except.bind, Pure.pure, Except.pure] at h

/-- The cumulative Gregorian month loop of `GregorianToJalali` succeeds
for months 1–12 and adds the month-prefix day count. -/
theorem gMonthAcc_eq (gy gm : Int) (h1 : 1 ≤ gm) (h2 : gm ≤ 12) (acc : Int) :
    gMonthAccGo gy (gm - 1).toNat 0 acc = .ok (acc + gPrefixB (IsLeapYear gy) gm) := by
  interval_cases gm <;>
    cases hL : IsLeapYear gy <;>
      simp [gMonthAccGo, vecGet, g_days_in_month, hL, gPrefixB, gPrefixNL,
        Except.bind, Bind.bind, Pure.pure, Except.pure] <;> ring

/-! ### Concrete evaluations settling the pointwise claims -/

/-- C2: `JalaliToGregorian("1400-01-01", false)` is the composed
Gregorian date-time value for 2021-03-21 00:00:00. -/
theorem C2_known_fixed_point :
    JalaliToGregorian "1400-01-01" false = .ok ⟨2021, 3, 21, 0, 0, 0, 0⟩ := by
  rfl

/-- C1 counterexample and boundary: the Gregorian value 1600-01-01
00:00:00 is valid and has midnight time-of-day with zero microseconds,
yet the round trip does not return it: `GregorianToJalali` emits
`"0979-01--78"` (the internal Jalali day number is negative) and
`JalaliToGregorian` then fails with a format error, so the round trip is
not the identity on all valid midnight values.  The anchor condition of
the amended claim is sufficient but not necessary: the pre-anchor date
1600-03-19 (Gregorian day number 78, internal Jalali day number -1) is
emitted as the well-formed `"0979-01-00"` and round-trips to itself. -/
theorem C1_counterexample :
    ValidTs ⟨1600, 1, 1, 0, 0, 0, 0⟩ = true ∧
    roundTrip ⟨1600, 1, 1, 0, 0, 0, 0⟩ = .error .formatError ∧
    roundTrip ⟨1600, 1, 1, 0, 0, 0, 0⟩ ≠ .ok ⟨1600, 1, 1, 0, 0, 0, 0⟩ ∧
    ValidTs ⟨1600, 3, 19, 0, 0, 0, 0⟩ = true ∧
    ¬(79 ≤ gDayNo 1600 3 19) ∧
    roundTrip ⟨1600, 3, 19, 0, 0, 0, 0⟩ = .ok ⟨1600, 3, 19, 0, 0, 0, 0⟩ := by
  refine ⟨rfl, rfl, by decide, rfl, by decide, rfl⟩

/-- C3 counterexample: on the valid Gregorian leap day 1600-02-29 the
code emits the Jalali triple `(979, 1, -19)`: the month is in range but
the emitted day is `-19`, which does not lie within any Jalali month's
length, so the output is not a valid Jalali date. -/
theorem C3_counterexample :
    ValidTs ⟨1600, 2, 29, 0, 0, 0, 0⟩ = true ∧
    gregDateToJalaliNums 1600 2 29 = .ok (979, 1, -19) ∧
    ¬(1 ≤ (-19 : Int)) := by
  exact ⟨rfl, rfl, by decide⟩

/-- C3 amended: on the first Gregorian leap day on or after the
algorithm's anchor 1600-03-20, namely 1604-02-29, the code emits the
Jalali triple `(982, 12, 10)`: the month lies in 1..12 and the day lies
within Jalali month 12's length (at most 29), with no month overflow. -/
theorem C3_leap_day_after_anchor :
    ValidTs ⟨1604, 2, 29, 0, 0, 0, 0⟩ = true ∧
    gregDateToJalaliNums 1604 2 29 = .ok (982, 12, 10) ∧
    1 ≤ (12 : Int) ∧ (12 : Int) ≤ 12 ∧ 1 ≤ (10 : Int) ∧ (10 : Int) ≤ 29 := by
  exact ⟨rfl, rfl, by decide, by decide, by decide, by decide⟩

/-- C4 counterexample: on the empty input string the date part (the
substring before the first space) splits on `-` into zero fields, not
three, yet `JalaliToGregorian` does not fail with the format error: the
unchecked access `datetime_parts[0]` into the empty split result happens
first (undefined behaviour, embedded as `Err.oob`). -/
theorem C4_counterexample :
    (splitG '-' (datePartOf ("".data))).length ≠ 3 ∧
    JalaliToGregorian "" false = .error .oob ∧
    JalaliToGregorian "" false ≠ .error .formatError := by
  exact ⟨by decide, rfl, by decide⟩

/-- C6 counterexamples and boundary: the valid midnight value 1600-01-02
00:00:00 is formatted as `"0979-01--77"` (11 characters, negative day),
which is not of the zero-padded `YYYY-MM-DD` shape the claim asserts for
every valid midnight value; the valid midnight value 294000-01-01
00:00:00 is formatted as `"293378-11-03"`, whose six-digit year field
also violates the shape, so some year bound is needed as well.  Neither
restriction of the amended claim is exact: the pre-anchor date
1600-03-19 is emitted as the well-formed `"0979-01-00"`, which does
satisfy the shape. -/
theorem C6_counterexample :
    ValidTs ⟨1600, 1, 2, 0, 0, 0, 0⟩ = true ∧
    GregorianToJalali ⟨1600, 1, 2, 0, 0, 0, 0⟩ = .ok "0979-01--77" ∧
    dateOnlyShape ("0979-01--77".data) = false ∧
    ValidTs ⟨294000, 1, 1, 0, 0, 0, 0⟩ = true ∧
    GregorianToJalali ⟨294000, 1, 1, 0, 0, 0, 0⟩ = .ok "293378-11-03" ∧
    dateOnlyShape ("293378-11-03".data) = false ∧
    GregorianToJalali ⟨1600, 3, 19, 0, 0, 0, 0⟩ = .ok "0979-01-00" ∧
    dateOnlyShape ("0979-01-00".data) = true := by
  exact ⟨rfl, rfl, rfl, rfl, rfl, rfl, rfl, rfl⟩

/-- C7 counterexample: in the input `"1400-01-01 1:2:3:4"` the time part
has a third `:`-separated field, `"3"`, whose parse is 3, yet the
returned seconds component is 0: with four fields the third field is not
the seconds (it is read only when the field count is exactly three), and
the undersized/oversized time part is not rejected. -/
theorem C7_counterexample :
    (splitG ':' ((splitG ' ' ("1400-01-01 1:2:3:4".data)).getD 1 [])).get? 2 =
      some ['3'] ∧
    stoi ['3'] = .ok 3 ∧
    JalaliToGregorian "1400-01-01 1:2:3:4" false = .ok ⟨2021, 3, 21, 1, 2, 0, 0⟩ := by
  exact ⟨rfl, rfl, rfl⟩

/-- C9 counterexample: the empty input string splits into no parts, so
the access to part 0 of the split result is not within bounds; the
embedded run fails with the out-of-bounds error. -/
theorem C9_counterexample :
    (splitG ' ' ("".data)).length = 0 ∧
    ¬(0 < (splitG ' ' ("".data)).length) ∧
    JalaliToGregorian "" false = .error .oob := by
  exact ⟨rfl, by decide, rfl⟩

/-! ### General theorems settling the universally quantified claims -/

/-- C4 amended: for every non-empty input string (the empty string
instead hits the out-of-bounds part access before the field-count
check), `JalaliToGregorian` fails with the format error exactly when the
date part — the substring before the first space — does not split on
`-` into exactly three fields. -/
theorem C4_format_error_iff (s : String) (hne : s ≠ "") (eod : Bool) :
    (JalaliToGregorian s eod = .error .formatError ↔
      (splitG '-' (datePartOf s.data)).length ≠ 3) := by
  obtain ⟨l⟩ := s
  cases l with
  | nil => exact absurd rfl hne
  | cons c cs =>
    obtain ⟨ts, hts⟩ := splitG_head ' ' c cs
    have hd : parseDateNums (String.mk (c :: cs)).data
        = parseDateFields (splitG '-' ((c :: cs).takeWhile (· != ' '))) :=
      parseDate_cons ((String.mk (c :: cs)).data) ((c :: cs).takeWhile (· != ' ')) ts hts
    show _ ↔ (splitG '-' ((c :: cs).takeWhile (· != ' '))).length ≠ 3
    by_cases hlen : (splitG '-' ((c :: cs).takeWhile (· != ' '))).length = 3
    · simp only [hlen, ne_eq, not_true_eq_false, iff_false]
      intro hJ
      obtain ⟨p0, p1, p2, hdf⟩ := List.length_eq_three.mp hlen
      rw [hdf, pdf3] at hd
      cases h0 : stoi p0 with
      | error e =>
        rw [h0] at hd
        simp only [Bind.bind, Except.bind] at hd
        rw [J2G_date_err _ eod e hd] at hJ
        exact stoi_no_format p0 (by rw [h0, Except.error.inj hJ])
      | ok v0 =>
        rw [h0] at hd
        simp only [Bind.bind, Except.bind] at hd
        cases h1 : stoi p1 with
        | error e =>
          rw [h1] at hd
          simp only [Bind.bind, Except.bind] at hd
          rw [J2G_date_err _ eod e hd] at hJ
          exact stoi_no_format p1 (by rw [h1, Except.error.inj hJ])
        | ok v1 =>
          rw [h1] at hd
          simp only [Bind.bind, Except.bind] at hd
          cases h2 : stoi p2 with
          | error e =>
            rw [h2] at hd
            simp only [Bind.bind, Except.bind] at hd
            rw [J2G_date_err _ eod e hd] at hJ
            exact stoi_no_format p2 (by rw [h2, Except.error.inj hJ])
          | ok v2 =>
            rw [h2] at hd
            simp only [Bind.bind, Except.bind, Pure.pure, Except.pure] at hd
            unfold JalaliToGregorian at hJ
            rw [hd] at hJ
            simp only [Bind.bind, Except.bind] at hJ
            cases hpt : parseTimeNums (String.mk (c :: cs)).data with
            | error e2 =>
              rw [hpt] at hJ
              simp only [Except.error.injEq] at hJ
              exact parseTimeNums_no_format _ (by rw [hpt, hJ])
            | ok tv =>
              rw [hpt] at hJ
              simp only [Pure.pure, Except.pure] at hJ
              exact Except.noConfusion hJ
    · simp only [hlen, ne_eq, not_false_eq_true, iff_true]
      have hpd : parseDateNums (String.mk (c :: cs)).data = .error .formatError := by
        rw [hd, pdf_not3 _ hlen]
      exact J2G_date_err _ eod _ hpd

/-- C4 witness: on the input `"1400-01"` the date part has two fields
and the function fails with the format error. -/
theorem C4_witness :
    ("1400-01" : String) ≠ "" ∧
    (splitG '-' (datePartOf ("1400-01".data))).length ≠ 3 ∧
    JalaliToGregorian "1400-01" false = .error .formatError := by
  refine ⟨by decide, by decide, ?_⟩
  exact (C4_format_error_iff "1400-01" (by decide) false).mpr (by decide)

/-- C5: for every input string, running with `end_of_day = true` yields
exactly the `end_of_day = false` result with its time-of-day replaced by
23:59:59 (and zero microseconds): the returned time is the override and
the computed Gregorian date (and any error) is unaffected by the flag. -/
theorem C5_end_of_day_override (s : String) :
    JalaliToGregorian s true =
      (JalaliToGregorian s false).map
        (fun t => ⟨t.year, t.month, t.day, 23, 59, 59, 0⟩) := by
  unfold JalaliToGregorian
  cases hd : parseDateNums s.data with
  | error e => simp [Except.map, Except.bind, Bind.bind]
  | ok v =>
    obtain ⟨jy, jm, jd⟩ := v
    cases ht : parseTimeNums s.data with
    | error e => simp [Except.map, Except.bind, Bind.bind, ht]
    | ok tv => simp [Except.map, Except.bind, Bind.bind, Pure.pure, Except.pure, ht]

/-- C7 amended: an absent time part gives time 00:00:00; a time part
whose `:` split has fewer than two fields is ignored (also giving
00:00:00) rather than rejected; with at least two fields the hour and
minute are parsed from the first two fields, and the seconds from the
third exactly when the field count is three (otherwise 0). -/
theorem C7_time_part_rules (s : String) :
    ((splitG ' ' s.data).length ≤ 1 → parseTimeNums s.data = .ok (0, 0, 0)) ∧
    (∀ tp, (splitG ' ' s.data).get? 1 = some tp →
      ((splitG ':' tp).length < 2 → parseTimeNums s.data = .ok (0, 0, 0)) ∧
      (∀ t0 t1 r2, splitG ':' tp = t0 :: t1 :: r2 →
        parseTimeNums s.data = (do
          let hour ← stoi t0
          let minute ← stoi t1
          let second ← (if r2.length = 1 then stoi (r2.getD 0 []) else pure (0 : Int))
          pure (hour, minute, second)))) := by
  refine ⟨parseTime_notime s.data, ?_⟩
  intro tp h1
  cases hsp : splitG ' ' s.data with
  | nil => rw [hsp] at h1; exact Option.noConfusion h1
  | cons a l1 =>
    cases l1 with
    | nil => rw [hsp] at h1; exact Option.noConfusion h1
    | cons b rest =>
      rw [hsp] at h1
      have hb : b = tp := by simpa using h1
      rw [hb] at hsp
      refine ⟨?_, ?_⟩
      · intro hlt
        rw [parseTime_cons s.data a tp rest hsp]
        exact ptop_lt2 tp hlt
      · intro t0 t1 r2 hts
        rw [parseTime_cons s.data a tp rest hsp, ptop_ge2 tp t0 t1 r2 hts]
        cases r2 with
        | nil => rfl
        | cons q l4 =>
          cases l4 with
          | nil => rfl
          | cons q2 l5 =>
            have hne2 : ¬((q :: q2 :: l5).length = 1) := by simp
            rw [if_neg hne2]

/-- C7 witness: the input `"1400-01-01 5"` has a one-field time part,
which is ignored, leaving the time at 00:00:00. -/
theorem C7_witness :
    (splitG ' ' ("1400-01-01 5".data)).get? 1 = some ['5'] ∧
    (splitG ':' ['5']).length < 2 ∧
    parseTimeNums ("1400-01-01 5".data) = .ok (0, 0, 0) := by
  refine ⟨rfl, by decide, ?_⟩
  exact ((C7_time_part_rules "1400-01-01 5").2 ['5'] rfl).1 (by decide)

/-- C8: `GregorianToJalali` is total on valid composed date-time values:
every array access of its month loop is within bounds, so it returns a
string and never errors — including for dates before the algorithm's
anchor, whose internal Jalali day number is negative. -/
theorem C8_total (t : Timestamp) (h : ValidTs t = true) :
    ∃ s, GregorianToJalali t = .ok s := by
  simp only [ValidTs, Bool.and_eq_true, decide_eq_true_eq, and_assoc] at h
  obtain ⟨h1, h2, -⟩ := h
  simp only [GregorianToJalali, gregDateToJalaliNums, gMonthAcc_eq t.year t.month h1 h2,
    Except.bind, Bind.bind, Pure.pure, Except.pure]
  exact ⟨_, rfl⟩

/-- C8 witness: the valid value 1599-01-01 00:00:00, whose internal
Jalali day number is negative, still yields a string. -/
theorem C8_witness :
    ∃ s, GregorianToJalali ⟨1599, 1, 1, 0, 0, 0, 0⟩ = .ok s :=
  C8_total ⟨1599, 1, 1, 0, 0, 0, 0⟩ (by decide)

/-- C9 amended: for every non-empty input string the access to part 0 of
the space split is within bounds; the empty string instead splits into
no parts, making that access out of bounds. -/
theorem C9_first_part_in_bounds (s : String) (h : s ≠ "") :
    0 < (splitG ' ' s.data).length := by
  cases s with
  | mk l =>
    cases l with
    | nil => exact absurd rfl h
    | cons c cs => exact List.length_pos.mpr (splitG_cons_ne_nil ' ' c cs)

/-- C9 witness: the non-empty input `"1400-01-01"` splits into at least
one part. -/
theorem C9_witness : 0 < (splitG ' ' ("1400-01-01".data)).length :=
  C9_first_part_in_bounds "1400-01-01" (by decide)

/-- C10: when the time part splits on `:` into four or more fields, the
hour and minute are parsed from the first two fields and the seconds is
left at 0; the remaining fields are ignored. -/
theorem C10_extra_time_fields (s : String) (tp : List Char)
    (h1 : (splitG ' ' s.data).get? 1 = some tp)
    (h2 : 4 ≤ (splitG ':' tp).length)
    (hm mi : Int)
    (hh : stoi ((splitG ':' tp).getD 0 []) = .ok hm)
    (hmin : stoi ((splitG ':' tp).getD 1 []) = .ok mi) :
    parseTimeNums s.data = .ok (hm, mi, 0) := by
  cases hsp : splitG ' ' s.data with
  | nil => rw [hsp] at h1; exact Option.noConfusion h1
  | cons a l1 =>
    cases l1 with
    | nil => rw [hsp] at h1; exact Option.noConfusion h1
    | cons b rest =>
      rw [hsp] at h1
      have hb : b = tp := by simpa using h1
      rw [hb] at hsp
      cases hts : splitG ':' tp with
      | nil => rw [hts] at h2; simp at h2
      | cons t0 l2 =>
        cases l2 with
        | nil => rw [hts] at h2; simp at h2
        | cons t1 l3 =>
          cases l3 with
          | nil => rw [hts] at h2; simp at h2
          | cons t2 l4 =>
            cases l4 with
            | nil => rw [hts] at h2; simp at h2
            | cons t3 l5 =>
              rw [hts] at hh hmin
              simp only [List.getD_cons_zero, List.getD_cons_succ] at hh hmin
              rw [parseTime_cons s.data a tp rest hsp,
                ptop_ge2 tp t0 t1 (t2 :: t3 :: l5) hts, hh, hmin]
              rfl

/-- C10 witness: on `"1400-01-01 1:2:3:4"` the four-field time part
yields hour 1, minute 2 and seconds 0. -/
theorem C10_witness :
    4 ≤ (splitG ':' ("1:2:3:4".data)).length ∧
    parseTimeNums ("1400-01-01 1:2:3:4".data) = .ok (1, 2, 0) := by
  refine ⟨by decide, ?_⟩
  exact C10_extra_time_fields "1400-01-01 1:2:3:4" ("1:2:3:4".data) rfl (by decide) 1 2 rfl rfl

/-! ### Arithmetic of the day-number decompositions -/

/-- The leap-year test, unfolded to Euclidean remainder conditions for
nonnegative years (the truncated and Euclidean remainders agree there). -/
theorem isLeap_iff (y : Int) (hy : 0 ≤ y) :
    IsLeapYear y = true ↔ (y % 400 = 0 ∨ (¬(y % 100 = 0) ∧ y % 4 = 0)) := by
  unfold IsLeapYear
  rw [Int.tmod_eq_emod hy (by decide), Int.tmod_eq_emod hy (by decide),
    Int.tmod_eq_emod hy (by decide)]
  simp [Bool.or_eq_true, Bool.and_eq_true, decide_eq_true_eq]

/-- Closed evaluation of `db` on a year offset decomposed into 400-,
100-, 4- and 1-year cycle counts. -/
theorem db_comp (b c d e : Int) (hc0 : 0 ≤ c) (hc3 : c ≤ 3) (hd0 : 0 ≤ d)
    (hd24 : d ≤ 24) (he0 : 0 ≤ e) (he3 : e ≤ 3) :
    db (400 * b + 100 * c + 4 * d + e) =
      146097 * b + 36524 * c + 1461 * d + 365 * e +
        min e 1 - min (4 * d + e) 1 + min (100 * c + 4 * d + e) 1 := by
  unfold db; omega

/-- Characterization of the year-level Gregorian decomposition: for a
nonnegative day number it returns the year containing that day, the
day-of-year remainder, and the correct leap flag. -/
theorem gYearSplit_char (n : Int) (hn : 0 ≤ n) (gy doy : Int) (leap : Bool)
    (h : gYearSplit n = (gy, doy, leap)) :
    1600 ≤ gy ∧ n = db (gy - 1600) + doy ∧ 0 ≤ doy ∧
      (leap = true → doy < 366) ∧ (leap = false → doy < 365) ∧
      leap = IsLeapYear gy := by
  simp only [gYearSplit] at h
  rw [Int.tdiv_eq_ediv hn (by decide), Int.tmod_eq_emod hn (by decide)] at h
  have h1 : 0 ≤ n % 146097 := Int.emod_nonneg n (by decide)
  have hb0 : 0 ≤ n / 146097 := Int.ediv_nonneg hn (by decide)
  split_ifs at h with hc1 hc2 hc3 hc4 hc5
  · dsimp only at h hc3
    have e1 : (0:Int) ≤ n % 146097 - 1 := by omega
    rw [Int.tdiv_eq_ediv e1 (by decide)] at h
    rw [Int.tmod_eq_emod e1 (by decide)] at h hc2 hc3
    have e2 : (0:Int) ≤ (n % 146097 - 1) % 36524 + 1 := by
      have := Int.emod_nonneg (n % 146097 - 1) (show (36524:Int) ≠ 0 by decide)
      omega
    rw [Int.tdiv_eq_ediv e2 (by decide)] at h
    rw [Int.tmod_eq_emod e2 (by decide)] at h hc3
    have e3 : (0:Int) ≤ ((n % 146097 - 1) % 36524 + 1) % 1461 - 1 := by omega
    rw [Int.tdiv_eq_ediv e3 (by decide)] at h
    rw [Int.tmod_eq_emod e3 (by decide)] at h
    simp only [Prod.mk.injEq] at h
    obtain ⟨hgy, hdoy, hleap⟩ := h
    subst hgy hdoy
    rw [← hleap]
    have harg : 1600 + 400 * (n / 146097) + 100 * ((n % 146097 - 1) / 36524) +
        4 * (((n % 146097 - 1) % 36524 + 1) / 1461) +
        (((n % 146097 - 1) % 36524 + 1) % 1461 - 1) / 365 - 1600 =
        400 * (n / 146097) + 100 * ((n % 146097 - 1) / 36524) +
        4 * (((n % 146097 - 1) % 36524 + 1) / 1461) +
        (((n % 146097 - 1) % 36524 + 1) % 1461 - 1) / 365 := by ring
    refine ⟨by omega, ?_, by omega, by intro hX; exact Bool.noConfusion hX,
      by intro _; omega, ?_⟩
    · rw [harg, db_comp _ _ _ _ (by omega) (by omega) (by omega) (by omega)
        (by omega) (by omega)]
      omega
    · rw [eq_comm, Bool.eq_false_iff, ne_eq, isLeap_iff _ (by omega)]
      omega
  · dsimp only at h hc3
    have e1 : (0:Int) ≤ n % 146097 - 1 := by omega
    rw [Int.tdiv_eq_ediv e1 (by decide)] at h
    rw [Int.tmod_eq_emod e1 (by decide)] at h hc2 hc3
    have e2 : (0:Int) ≤ (n % 146097 - 1) % 36524 + 1 := by
      have := Int.emod_nonneg (n % 146097 - 1) (show (36524:Int) ≠ 0 by decide)
      omega
    rw [Int.tdiv_eq_ediv e2 (by decide)] at h
    rw [Int.tmod_eq_emod e2 (by decide)] at h hc3
    simp only [Prod.mk.injEq] at h
    obtain ⟨hgy, hdoy, hleap⟩ := h
    subst hgy hdoy
    rw [← hleap]
    have harg : 1600 + 400 * (n / 146097) + 100 * ((n % 146097 - 1) / 36524) +
        4 * (((n % 146097 - 1) % 36524 + 1) / 1461) - 1600 =
        400 * (n / 146097) + 100 * ((n % 146097 - 1) / 36524) +
        4 * (((n % 146097 - 1) % 36524 + 1) / 1461) + 0 := by ring
    refine ⟨by omega, ?_, by omega, by intro _; omega,
      by intro hX; exact Bool.noConfusion hX, ?_⟩
    · rw [harg, db_comp _ _ _ _ (by omega) (by omega) (by omega) (by omega)
        (by omega) (by omega)]
      omega
    · rw [eq_comm, isLeap_iff _ (by omega)]
      omega
  · dsimp only at h hc4
    have e1 : (0:Int) ≤ n % 146097 - 1 := by omega
    rw [Int.tmod_eq_emod e1 (by decide)] at hc2 hc4
    have e2 : (0:Int) ≤ (n % 146097 - 1) % 36524 :=
      Int.emod_nonneg _ (show (36524:Int) ≠ 0 by decide)
    rw [Int.tmod_eq_emod e2 (by decide)] at hc4
    exfalso
    omega
  · dsimp only at h hc4
    have e1 : (0:Int) ≤ n % 146097 - 1 := by omega
    rw [Int.tdiv_eq_ediv e1 (by decide)] at h
    rw [Int.tmod_eq_emod e1 (by decide)] at h hc2 hc4
    have e2 : (0:Int) ≤ (n % 146097 - 1) % 36524 :=
      Int.emod_nonneg _ (show (36524:Int) ≠ 0 by decide)
    rw [Int.tdiv_eq_ediv e2 (by decide)] at h
    rw [Int.tmod_eq_emod e2 (by decide)] at h hc4
    simp only [Prod.mk.injEq] at h
    obtain ⟨hgy, hdoy, hleap⟩ := h
    subst hgy hdoy
    rw [← hleap]
    have harg : 1600 + 400 * (n / 146097) + 100 * ((n % 146097 - 1) / 36524) +
        4 * ((n % 146097 - 1) % 36524 / 1461) - 1600 =
        400 * (n / 146097) + 100 * ((n % 146097 - 1) / 36524) +
        4 * ((n % 146097 - 1) % 36524 / 1461) + 0 := by ring
    refine ⟨by omega, ?_, by omega, by intro hX; exact Bool.noConfusion hX,
      by intro _; omega, ?_⟩
    · rw [harg, db_comp _ _ _ _ (by omega) (by omega) (by omega) (by omega)
        (by omega) (by omega)]
      omega
    · rw [eq_comm, Bool.eq_false_iff, ne_eq, isLeap_iff _ (by omega)]
      omega
  · dsimp only at h hc5
    rw [Int.tdiv_eq_ediv h1 (by decide)] at h
    rw [Int.tmod_eq_emod h1 (by decide)] at h hc5
    have e3 : (0:Int) ≤ n % 146097 % 1461 - 1 := by omega
    rw [Int.tdiv_eq_ediv e3 (by decide)] at h
    rw [Int.tmod_eq_emod e3 (by decide)] at h
    simp only [Prod.mk.injEq] at h
    obtain ⟨hgy, hdoy, hleap⟩ := h
    subst hgy hdoy
    rw [← hleap]
    have harg : 1600 + 400 * (n / 146097) + 4 * (n % 146097 / 1461) +
        (n % 146097 % 1461 - 1) / 365 - 1600 =
        400 * (n / 146097) + 100 * 0 + 4 * (n % 146097 / 1461) +
        (n % 146097 % 1461 - 1) / 365 := by ring
    refine ⟨by omega, ?_, by omega, by intro hX; exact Bool.noConfusion hX,
      by intro _; omega, ?_⟩
    · rw [harg, db_comp _ _ _ _ (by omega) (by omega) (by omega) (by omega)
        (by omega) (by omega)]
      omega
    · rw [eq_comm, Bool.eq_false_iff, ne_eq, isLeap_iff _ (by omega)]
      omega
  · dsimp only at h hc5
    rw [Int.tdiv_eq_ediv h1 (by decide)] at h
    rw [Int.tmod_eq_emod h1 (by decide)] at h hc5
    simp only [Prod.mk.injEq] at h
    obtain ⟨hgy, hdoy, hleap⟩ := h
    subst hgy hdoy
    rw [← hleap]
    have harg : 1600 + 400 * (n / 146097) + 4 * (n % 146097 / 1461) - 1600 =
        400 * (n / 146097) + 100 * 0 + 4 * (n % 146097 / 1461) + 0 := by ring
    refine ⟨by omega, ?_, by omega, by intro _; omega,
      by intro hX; exact Bool.noConfusion hX, ?_⟩
    · rw [harg, db_comp _ _ _ _ (by omega) (by omega) (by omega) (by omega)
        (by omega) (by omega)]
      omega
    · rw [eq_comm, isLeap_iff _ (by omega)]
      omega

/-- Characterization of the year-level Jalali decomposition: for a
nonnegative day number it returns a year at least 979 and a day-of-year
remainder that recompose to the day number. -/
theorem jYearSplit_char (n : Int) (hn : 0 ≤ n) (jy doy : Int)
    (h : jYearSplit n = (jy, doy)) :
    979 ≤ jy ∧ n = jdb (jy - 979) + doy ∧ 0 ≤ doy ∧ doy ≤ 365 := by
  simp only [jYearSplit] at h
  rw [Int.tdiv_eq_ediv hn (by decide), Int.tmod_eq_emod hn (by decide)] at h
  have h1 : 0 ≤ n % 12053 := Int.emod_nonneg n (by decide)
  rw [Int.tdiv_eq_ediv h1 (by decide), Int.tmod_eq_emod h1 (by decide)] at h
  split_ifs at h with h2
  · have h3 : (0:Int) ≤ n % 12053 % 1461 - 1 := by omega
    rw [Int.tdiv_eq_ediv h3 (by decide), Int.tmod_eq_emod h3 (by decide)] at h
    simp only [Prod.mk.injEq] at h
    obtain ⟨hjy, hdoy⟩ := h
    subst hjy hdoy
    unfold jdb
    omega
  · simp only [Prod.mk.injEq] at h
    obtain ⟨hjy, hdoy⟩ := h
    subst hjy hdoy
    unfold jdb
    omega

set_option maxRecDepth 8000 in
/-- The Gregorian month walk inverts the month-prefix sum: started at the
day-of-year position of day `d0 + 1` of month `m`, it returns `(m, d0)`. -/
theorem gWalk_comp (leap : Bool) : ∀ m : Nat, m < 13 → ∀ d0 : Nat, d0 < 31 →
    (1 ≤ m → (d0 : Int) < gMonthDays leap (m : Int) →
      gMonthWalk leap (gPrefixB leap (m : Int) + (d0 : Int)) = ((m : Int), (d0 : Int))) := by
  cases leap <;> decide

set_option maxRecDepth 8000 in
/-- A month-prefix position lies inside the year. -/
theorem gPrefix_lt (leap : Bool) : ∀ m : Nat, m < 13 → ∀ d0 : Nat, d0 < 31 →
    (1 ≤ m → (d0 : Int) < gMonthDays leap (m : Int) →
      gPrefixB leap (m : Int) + (d0 : Int) < (if leap = true then 366 else 365)) := by
  cases leap <;> decide

set_option maxRecDepth 8000 in
/-- The Jalali month walk decomposes a day-of-year count below 366 into a
month in 1–12 and a day offset whose prefix sum restores the count. -/
theorem jWalk_char : ∀ doy : Nat, doy < 366 →
    jPrefix ((((jMonthWalkGo 11 0 (doy : Int)).1 : Nat) : Int) + 1) +
        (jMonthWalkGo 11 0 (doy : Int)).2 = (doy : Int) ∧
      (jMonthWalkGo 11 0 (doy : Int)).1 + 1 ≤ 12 ∧
      0 ≤ (jMonthWalkGo 11 0 (doy : Int)).2 ∧
      (jMonthWalkGo 11 0 (doy : Int)).2 + 1 ≤ 31 := by
  decide

/-- The month loop of `JalaliToGregorian` computes the Jalali month
prefix sum. -/
theorem jMonthSum_eq_jPrefix : ∀ m : Nat, m < 13 → 1 ≤ m →
    jMonthSum (m : Int) = jPrefix (m : Int) := by
  decide

/-- Successive `db` values differ by at least a year's length. -/
theorem db_step (y : Int) : db y + 365 ≤ db (y + 1) := by
  unfold db; omega

/-- Monotonicity of the year-start day count. -/
theorem db_mono {a b : Int} (hab : a ≤ b) : db a ≤ db b := by
  have H : ∀ k : Nat, db a ≤ db (a + (k : Int)) := by
    intro k
    induction k with
    | zero => simp
    | succ k ih =>
      have hs := db_step (a + (k : Int))
      have harg : a + ((k + 1 : Nat) : Int) = a + (k : Int) + 1 := by push_cast; ring
      rw [harg]
      linarith
  have hk : b = a + (((b - a).toNat : Nat) : Int) := by omega
  rw [hk]
  exact H _

/-- A Gregorian year has 366 days exactly when the leap predicate holds
for it. -/
theorem db_succ (y : Int) (hy : 0 ≤ y) :
    db (y + 1) - db y = (if IsLeapYear (1600 + y) = true then 366 else 365) := by
  cases hL : IsLeapYear (1600 + y) with
  | true =>
    rw [isLeap_iff _ (by omega)] at hL
    show db (y + 1) - db y = 366
    rcases hL with h | ⟨h1, h2⟩
    · have h' : y % 400 = 0 := by omega
      unfold db
      omega
    · have h1' : ¬(y % 100 = 0) := by omega
      have h2' : y % 4 = 0 := by omega
      unfold db
      omega
  | false =>
    have hL2 : ¬(IsLeapYear (1600 + y) = true) := by
      rw [hL]; exact fun hX => Bool.noConfusion hX
    rw [isLeap_iff _ (by omega)] at hL2
    show db (y + 1) - db y = 365
    push_neg at hL2
    obtain ⟨ha, hb⟩ := hL2
    have ha' : ¬(y % 400 = 0) := by omega
    by_cases hc : (1600 + y) % 100 = 0
    · have hc' : y % 100 = 0 := by omega
      unfold db
      omega
    · have hd := hb hc
      have hd' : ¬(y % 4 = 0) := by omega
      unfold db
      omega

/-- A day number determines its Gregorian year and day-of-year
uniquely. -/
theorem db_unique {y2 y2' doy doy' : Int} (h2 : 0 ≤ y2) (h2' : 0 ≤ y2')
    (hd : 0 ≤ doy) (hd' : 0 ≤ doy')
    (hl : doy < db (y2 + 1) - db y2) (hl' : doy' < db (y2' + 1) - db y2')
    (he : db y2 + doy = db y2' + doy') : y2 = y2' ∧ doy = doy' := by
  rcases lt_trichotomy y2 y2' with hlt | heq | hgt
  · have h1 := db_mono (show y2 + 1 ≤ y2' by omega)
    constructor <;> linarith
  · refine ⟨heq, ?_⟩
    rw [heq] at he
    linarith
  · have h1 := db_mono (show y2' + 1 ≤ y2 by omega)
    constructor <;> linarith

/-- The day-number computation of `JalaliToGregorian` equals `jdb` plus
the month and day offsets. -/
theorem j_day_no_eq (jy0 jm jd : Int) (h : 979 ≤ jy0) :
    365 * (jy0 - 979) + ((jy0 - 979).tdiv 33) * 8 +
        (((jy0 - 979).tmod 33 + 3).tdiv 4) + jMonthSum jm + (jd - 1) =
      jdb (jy0 - 979) + jMonthSum jm + (jd - 1) := by
  have e1 : (0:Int) ≤ jy0 - 979 := by omega
  rw [Int.tdiv_eq_ediv e1 (by decide), Int.tmod_eq_emod e1 (by decide)]
  have e2 : (0:Int) ≤ (jy0 - 979) % 33 + 3 := by
    have := Int.emod_nonneg (jy0 - 979) (show (33:Int) ≠ 0 by decide)
    omega
  rw [Int.tdiv_eq_ediv e2 (by decide)]
  unfold jdb
  ring

/-- The base count of `GregorianToJalali` equals `db` of the year
offset. -/
theorem base_eq_db (gy : Int) (h : 1600 ≤ gy) :
    365 * (gy - 1600) + (gy - 1600 + 3).tdiv 4 - (gy - 1600 + 99).tdiv 100 +
        (gy - 1600 + 399).tdiv 400 = db (gy - 1600) := by
  rw [Int.tdiv_eq_ediv (by omega) (by decide), Int.tdiv_eq_ediv (by omega) (by decide),
    Int.tdiv_eq_ediv (by omega) (by decide)]
  unfold db
  ring

end Jalali

namespace Jalali

/-! ### Decimal formatting and its parse round trip -/

/-- Facts about decimal digit characters. -/
theorem digitChar_facts : ∀ d : Nat, d < 10 →
    isDigitB (digitChar d) = true ∧ isSpaceB (digitChar d) = false ∧
    digitChar d ≠ '-' ∧ digitChar d ≠ '+' ∧ digitChar d ≠ ' ' ∧
    digitChar d ≠ ':' ∧ (digitChar d).toNat = 48 + d := by
  decide

theorem digitsRevGo_all : ∀ fuel n : Nat, ∀ c ∈ digitsRevGo fuel n,
    ∃ d, d < 10 ∧ c = digitChar d := by
  intro fuel
  induction fuel with
  | zero => intro n c hc; exact absurd hc (by simp [digitsRevGo])
  | succ fuel ih =>
    intro n c hc
    cases n with
    | zero => exact absurd hc (by simp [digitsRevGo])
    | succ m =>
      simp only [digitsRevGo, List.mem_cons] at hc
      rcases hc with hc | hc
      · exact ⟨(m + 1) % 10, Nat.mod_lt _ (by omega), hc⟩
      · exact ih _ c hc

theorem decStr_all (n : Nat) : ∀ c ∈ decStr n, ∃ d, d < 10 ∧ c = digitChar d := by
  unfold decStr
  split
  · intro c hc
    simp at hc
    exact ⟨0, by omega, hc⟩
  · intro c hc
    rw [List.mem_reverse] at hc
    exact digitsRevGo_all n n c hc

theorem digitsVal_append_digit (l : List Char) (c : Char) :
    digitsVal (l ++ [c]) = 10 * digitsVal l + ((c.toNat : Int) - 48) := by
  unfold digitsVal
  rw [List.foldl_append]
  rfl

theorem digitsRevGo_val : ∀ fuel n : Nat, n ≤ fuel →
    digitsVal ((digitsRevGo fuel n).reverse) = n := by
  intro fuel
  induction fuel with
  | zero =>
    intro n hn
    have : n = 0 := by omega
    subst this
    rfl
  | succ fuel ih =>
    intro n hn
    cases n with
    | zero => rfl
    | succ m =>
      have hd : (m + 1) % 10 < 10 := Nat.mod_lt _ (by omega)
      have hdiv : (m + 1) / 10 ≤ fuel := by
        have := Nat.div_lt_self (show 0 < m + 1 by omega) (show 1 < 10 by omega)
        omega
      simp only [digitsRevGo, List.reverse_cons]
      rw [digitsVal_append_digit, ih _ hdiv, (digitChar_facts _ hd).2.2.2.2.2.2]
      have h10 : ((m + 1) % 10 : Nat) + 10 * ((m + 1) / 10) = m + 1 := by omega
      push_cast
      omega

theorem decStr_val (n : Nat) : digitsVal (decStr n) = n := by
  unfold decStr
  split
  · rename_i h
    subst h
    decide
  · exact digitsRevGo_val n n le_rfl

theorem digitsRevGo_len : ∀ k fuel n : Nat, n < 10 ^ k →
    (digitsRevGo fuel n).length ≤ k := by
  intro k
  induction k with
  | zero =>
    intro fuel n hn
    have : n = 0 := by omega
    subst this
    cases fuel <;> simp [digitsRevGo]
  | succ k ih =>
    intro fuel n hn
    cases fuel with
    | zero => simp [digitsRevGo]
    | succ fuel =>
      cases n with
      | zero => simp [digitsRevGo]
      | succ m =>
        simp only [digitsRevGo, List.length_cons]
        have hlt : (m + 1) / 10 < 10 ^ k := by
          rw [Nat.div_lt_iff_lt_mul (by omega)]
          calc m + 1 < 10 ^ (k + 1) := hn
          _ = 10 ^ k * 10 := by ring
        have := ih fuel ((m + 1) / 10) hlt
        omega

theorem decStr_len (k n : Nat) (hk : 1 ≤ k) (h : n < 10 ^ k) :
    (decStr n).length ≤ k := by
  unfold decStr
  split
  · simpa using hk
  · rw [List.length_reverse]
    exact digitsRevGo_len k n n h

theorem decStr_ne_nil (n : Nat) : decStr n ≠ [] := by
  unfold decStr
  split
  · simp
  · intro h
    rw [List.reverse_eq_nil_iff] at h
    have := digitsRevGo_val n n le_rfl
    rw [h] at this
    simp [digitsVal] at this
    omega

theorem padC_nonneg (w : Nat) (m : Int) (h : 0 ≤ m) :
    padC w m = List.replicate (w - (decStr m.natAbs).length) '0' ++ decStr m.natAbs := by
  unfold padC
  rw [if_neg (by omega)]
  simp

theorem padC_all (w : Nat) (m : Int) (h : 0 ≤ m) :
    ∀ c ∈ padC w m, ∃ d, d < 10 ∧ c = digitChar d := by
  rw [padC_nonneg w m h]
  intro c hc
  rw [List.mem_append] at hc
  rcases hc with hc | hc
  · rw [List.eq_of_mem_replicate hc]
    exact ⟨0, by omega, rfl⟩
  · exact decStr_all _ c hc

theorem padC_ne_nil (w : Nat) (m : Int) (h : 0 ≤ m) : padC w m ≠ [] := by
  rw [padC_nonneg w m h]
  intro hx
  rw [List.append_eq_nil] at hx
  exact decStr_ne_nil _ hx.2

theorem digitsVal_replicate_zero (k : Nat) (l : List Char) :
    digitsVal (List.replicate k '0' ++ l) = digitsVal l := by
  induction k with
  | zero => rfl
  | succ k ih =>
    rw [List.replicate_succ, List.cons_append]
    unfold digitsVal at ih ⊢
    simp only [List.foldl_cons]
    convert ih using 2 <;> decide

theorem takeWhile_all {p : Char → Bool} : ∀ l : List Char, (∀ c ∈ l, p c = true) →
    l.takeWhile p = l := by
  intro l h
  exact List.takeWhile_eq_self_iff.mpr h

theorem stoi_digitChars (l : List Char) (hne : l ≠ [])
    (hall : ∀ c ∈ l, ∃ d, d < 10 ∧ c = digitChar d) :
    stoi l = .ok (digitsVal l) := by
  obtain ⟨c, rest, rfl⟩ := List.exists_cons_of_ne_nil hne
  obtain ⟨d, hd, hc⟩ := hall c (by simp)
  have hfacts := digitChar_facts d hd
  simp only [stoi]
  rw [List.dropWhile_cons]
  rw [show isSpaceB c = false from hc ▸ hfacts.2.1]
  simp only [Bool.false_eq_true, if_false]
  rw [if_neg (show ¬(c = '-') from fun hx => (hc ▸ hfacts.2.2.1) hx)]
  rw [if_neg (show ¬(c = '+') from fun hx => (hc ▸ hfacts.2.2.2.1) hx)]
  have hall2 : ∀ x ∈ c :: rest, isDigitB x = true := by
    intro x hx
    obtain ⟨d2, hd2, hx2⟩ := hall x hx
    exact hx2 ▸ (digitChar_facts d2 hd2).1
  rw [takeWhile_all _ hall2]
  rw [if_neg (by simp)]
  simp

theorem stoi_padC (w : Nat) (m : Int) (h : 0 ≤ m) : stoi (padC w m) = .ok m := by
  rw [stoi_digitChars _ (padC_ne_nil w m h) (padC_all w m h), padC_nonneg w m h,
    digitsVal_replicate_zero, decStr_val, Int.natAbs_of_nonneg h]

end Jalali

namespace Jalali

/-! ### Splitting the formatted output strings -/

/-- The split recovers a delimiter-free prefix. -/
theorem splitG_append (d : Char) : ∀ (A : List Char), (∀ c ∈ A, c ≠ d) →
    ∀ R : List Char, splitG d (A ++ d :: R) = A :: splitG d R := by
  intro A
  induction A with
  | nil =>
    intro _ R
    simp [splitG_cons]
  | cons c A ih =>
    intro hA R
    have hc : c ≠ d := hA c (by simp)
    have ihA := ih (fun x hx => hA x (by simp [hx])) R
    rw [List.cons_append, splitG_cons, if_neg hc, ihA]

theorem splitG_single (d : Char) : ∀ A : List Char, A ≠ [] →
    (∀ c ∈ A, c ≠ d) → splitG d A = [A] := by
  intro A
  induction A with
  | nil => intro h; exact absurd rfl h
  | cons c A ih =>
    intro _ hA
    have hc : c ≠ d := hA c (by simp)
    rw [splitG_cons, if_neg hc]
    cases A with
    | nil => rfl
    | cons c2 A2 =>
      rw [ih (by simp) (fun x hx => hA x (by simp [hx]))]

theorem padC_len_le (w k : Nat) (m : Int) (h : 0 ≤ m) (hw : w ≤ k) (hk : 1 ≤ k)
    (hm : m.natAbs < 10 ^ k) : (padC w m).length ≤ k := by
  rw [padC_nonneg w m h, List.length_append, List.length_replicate]
  have := decStr_len k m.natAbs hk hm
  omega

theorem padC_len_exact (w : Nat) (m : Int) (h : 0 ≤ m)
    (hm : (decStr m.natAbs).length ≤ w) : (padC w m).length = w := by
  rw [padC_nonneg w m h, List.length_append, List.length_replicate]
  omega

theorem padC_no_delim (w : Nat) (v : Int) (hv : 0 ≤ v) :
    ∀ c ∈ padC w v, c ≠ '-' ∧ c ≠ ' ' ∧ c ≠ ':' := by
  intro c hc
  obtain ⟨dd, hdd, rfl⟩ := padC_all w v hv c hc
  have hf := digitChar_facts dd hdd
  exact ⟨hf.2.2.1, hf.2.2.2.2.1, hf.2.2.2.2.2.1⟩

theorem fmtDate_no_space (jy jm jd : Int) (h1 : 0 ≤ jy) (h2 : 0 ≤ jm) (h3 : 0 ≤ jd) :
    ∀ c ∈ padC 4 jy ++ ('-' :: padC 2 jm) ++ ('-' :: padC 2 jd), c ≠ ' ' := by
  intro c hc
  simp only [List.mem_append, List.mem_cons] at hc
  rcases hc with (hc | hc | hc) | hc | hc
  · exact (padC_no_delim 4 jy h1 c hc).2.1
  · subst hc; decide
  · exact (padC_no_delim 2 jm h2 c hc).2.1
  · subst hc; decide
  · exact (padC_no_delim 2 jd h3 c hc).2.1

theorem fmtTime_no_space (hh mi sec : Int) (h1 : 0 ≤ hh) (h2 : 0 ≤ mi) (h3 : 0 ≤ sec) :
    ∀ c ∈ padC 2 hh ++ (':' :: padC 2 mi) ++ (':' :: padC 2 sec), c ≠ ' ' := by
  intro c hc
  simp only [List.mem_append, List.mem_cons] at hc
  rcases hc with (hc | hc | hc) | hc | hc
  · exact (padC_no_delim 2 hh h1 c hc).2.1
  · subst hc; decide
  · exact (padC_no_delim 2 mi h2 c hc).2.1
  · subst hc; decide
  · exact (padC_no_delim 2 sec h3 c hc).2.1

theorem splitG_fmtDate (jy jm jd : Int) (h1 : 0 ≤ jy) (h2 : 0 ≤ jm) (h3 : 0 ≤ jd) :
    splitG '-' (padC 4 jy ++ ('-' :: padC 2 jm) ++ ('-' :: padC 2 jd)) =
      [padC 4 jy, padC 2 jm, padC 2 jd] := by
  have hassoc : padC 4 jy ++ ('-' :: padC 2 jm) ++ ('-' :: padC 2 jd) =
      padC 4 jy ++ '-' :: (padC 2 jm ++ '-' :: padC 2 jd) := by
    simp [List.append_assoc]
  rw [hassoc,
    splitG_append '-' (padC 4 jy) (fun c hc => (padC_no_delim 4 jy h1 c hc).1) _,
    splitG_append '-' (padC 2 jm) (fun c hc => (padC_no_delim 2 jm h2 c hc).1) _,
    splitG_single '-' (padC 2 jd) (padC_ne_nil 2 jd h3)
      (fun c hc => (padC_no_delim 2 jd h3 c hc).1)]

theorem splitG_fmtTime (hh mi sec : Int) (h1 : 0 ≤ hh) (h2 : 0 ≤ mi) (h3 : 0 ≤ sec) :
    splitG ':' (padC 2 hh ++ (':' :: padC 2 mi) ++ (':' :: padC 2 sec)) =
      [padC 2 hh, padC 2 mi, padC 2 sec] := by
  have hassoc : padC 2 hh ++ (':' :: padC 2 mi) ++ (':' :: padC 2 sec) =
      padC 2 hh ++ ':' :: (padC 2 mi ++ ':' :: padC 2 sec) := by
    simp [List.append_assoc]
  rw [hassoc,
    splitG_append ':' (padC 2 hh) (fun c hc => (padC_no_delim 2 hh h1 c hc).2.2) _,
    splitG_append ':' (padC 2 mi) (fun c hc => (padC_no_delim 2 mi h2 c hc).2.2) _,
    splitG_single ':' (padC 2 sec) (padC_ne_nil 2 sec h3)
      (fun c hc => (padC_no_delim 2 sec h3 c hc).2.2)]

end Jalali

namespace Jalali

/-! ### Inversion of the day-number conversions -/

/-- Bounds of the Gregorian month-prefix table. -/
theorem gPrefixB_bounds (leap : Bool) : ∀ mN : Nat, mN < 13 →
    0 ≤ gPrefixB leap (mN : Int) ∧ gPrefixB leap (mN : Int) ≤ 336 := by
  cases leap <;> decide

/-- Bounds of the Gregorian month lengths. -/
theorem gMonthDays_bounds (leap : Bool) : ∀ mN : Nat, mN < 13 →
    gMonthDays leap (mN : Int) ≤ 31 ∧ 28 ≤ gMonthDays leap (mN : Int) := by
  cases leap <;> decide

/-- The Gregorian day-number decomposition of `JalaliToGregorian` inverts
the day-number composition of `GregorianToJalali` on calendar-valid dates
from 1600 on. -/
theorem gregFromDayNo_inv (y m d : Int) (h1 : 1 ≤ m) (h2 : m ≤ 12) (h3 : 1 ≤ d)
    (h4 : d ≤ gMonthLen y m) (hy : 1600 ≤ y) :
    gregFromDayNo (db (y - 1600) + gPrefixB (IsLeapYear y) m + (d - 1)) = (y, m, d) := by
  have hex : ∃ t, gYearSplit (db (y - 1600) + gPrefixB (IsLeapYear y) m + (d - 1)) = t :=
    ⟨_, rfl⟩
  obtain ⟨⟨gy', doy', leap'⟩, hsp⟩ := hex
  have hdb0 : (0:Int) ≤ db (y - 1600) := by
    have hmono := db_mono (show (0:Int) ≤ y - 1600 by omega)
    have h0 : db 0 = 0 := by decide
    linarith
  have hmN : ((m.toNat : Nat) : Int) = m := Int.toNat_of_nonneg (by omega)
  have hpre := gPrefixB_bounds (IsLeapYear y) m.toNat (by omega)
  rw [hmN] at hpre
  have hmd := gMonthDays_bounds (IsLeapYear y) m.toNat (by omega)
  rw [hmN] at hmd
  have hmlb : gMonthLen y m ≤ 31 := hmd.1
  have hn0 : 0 ≤ db (y - 1600) + gPrefixB (IsLeapYear y) m + (d - 1) := by
    have := hpre.1
    linarith
  obtain ⟨hgy', hdbeq, hdoy'0, hlt_t, hlt_f, hleq⟩ := gYearSplit_char _ hn0 _ _ _ hsp
  have hdN : (((d - 1).toNat : Nat) : Int) = d - 1 := Int.toNat_of_nonneg (by omega)
  have hdlt : (((d - 1).toNat : Nat) : Int) < gMonthDays (IsLeapYear y) ((m.toNat : Nat) : Int) := by
    rw [hmN, hdN]
    unfold gMonthLen at h4
    linarith
  have hplt := gPrefix_lt (IsLeapYear y) m.toNat (by omega) (d - 1).toNat (by omega)
      (by omega) hdlt
  rw [hmN, hdN] at hplt
  have hds := db_succ (y - 1600) (by omega)
  rw [show 1600 + (y - 1600) = y from by ring] at hds
  have hds' := db_succ (gy' - 1600) (by omega)
  rw [show 1600 + (gy' - 1600) = gy' from by ring] at hds'
  have hdoy'lt : doy' < db (gy' - 1600 + 1) - db (gy' - 1600) := by
    cases hL' : leap' with
    | true =>
      have h366 := hlt_t hL'
      have hlen : db (gy' - 1600 + 1) - db (gy' - 1600) = 366 := by
        rw [hds', ← hleq, hL']
        decide
      linarith
    | false =>
      have h365 := hlt_f hL'
      have hlen : db (gy' - 1600 + 1) - db (gy' - 1600) = 365 := by
        rw [hds', ← hleq, hL']
        decide
      linarith
  have hdoylt : gPrefixB (IsLeapYear y) m + (d - 1) < db (y - 1600 + 1) - db (y - 1600) := by
    cases hLy : IsLeapYear y with
    | true =>
      have hif : (if IsLeapYear y = true then (366:Int) else 365) = 366 := by
        rw [hLy]
        decide
      rw [hif] at hplt hds
      rw [hLy] at hplt
      linarith
    | false =>
      have hif : (if IsLeapYear y = true then (366:Int) else 365) = 365 := by
        rw [hLy]
        decide
      rw [hif] at hplt hds
      rw [hLy] at hplt
      linarith
  have huniq := db_unique (show (0:Int) ≤ y - 1600 by omega)
      (show (0:Int) ≤ gy' - 1600 by omega)
      (show (0:Int) ≤ gPrefixB (IsLeapYear y) m + (d - 1) by linarith)
      hdoy'0 hdoylt hdoy'lt (by linarith)
  obtain ⟨hyy, hdd⟩ := huniq
  have hgy'y : gy' = y := by omega
  have hleap'y : leap' = IsLeapYear y := by rw [hleq, hgy'y]
  have hwalkc := gWalk_comp (IsLeapYear y) m.toNat (by omega) (d - 1).toNat (by omega)
      (by omega) hdlt
  rw [hmN, hdN] at hwalkc
  unfold gregFromDayNo
  rw [hsp]
  dsimp only
  rw [hgy'y, hleap'y, ← hdd, hwalkc]
  dsimp only
  rw [show d - 1 + 1 = d from by ring]
end Jalali

namespace Jalali

/-- The full Jalali-to-Gregorian date arithmetic of `JalaliToGregorian`
inverts the Gregorian-to-Jalali date arithmetic of `GregorianToJalali` on
calendar-valid dates on or after the anchor. -/
theorem jalaliNumsToGregDate_inv (y m d : Int)
    (h1 : 1 ≤ m) (h2 : m ≤ 12) (h3 : 1 ≤ d) (h4 : d ≤ gMonthLen y m) (hy : 1600 ≤ y)
    (jy jdoy : Int) (i : Nat) (r : Int)
    (hsplit : jYearSplit (db (y - 1600) + gPrefixB (IsLeapYear y) m + (d - 1) - 79) =
      (jy, jdoy))
    (hwalk : jMonthWalkGo 11 0 jdoy = (i, r))
    (hanchor : 0 ≤ db (y - 1600) + gPrefixB (IsLeapYear y) m + (d - 1) - 79) :
    jalaliNumsToGregDate jy ((i : Int) + 1) (r + 1) = (y, m, d) ∧
      979 ≤ jy ∧ (i : Int) + 1 ≤ 12 ∧ 1 ≤ r + 1 ∧ r + 1 ≤ 31 := by
  obtain ⟨hjy979, hjdb, hjdoy0, hjdoy365⟩ := jYearSplit_char _ hanchor _ _ hsplit
  have hcast : ((jdoy.toNat : Nat) : Int) = jdoy := Int.toNat_of_nonneg hjdoy0
  have hwc := jWalk_char jdoy.toNat (by omega)
  rw [hcast, hwalk] at hwc
  dsimp only at hwc
  obtain ⟨hsum, hi12, hr0, hr31⟩ := hwc
  refine ⟨?_, hjy979, by exact_mod_cast hi12, by omega, by omega⟩
  have hms : jMonthSum ((i : Int) + 1) = jPrefix ((i : Int) + 1) := by
    have hj := jMonthSum_eq_jPrefix (i + 1) (by omega) (by omega)
    push_cast at hj
    exact hj
  simp only [jalaliNumsToGregDate]
  rw [j_day_no_eq jy ((i : Int) + 1) (r + 1) hjy979, hms]
  have harg : jdb (jy - 979) + jPrefix ((i : Int) + 1) + (r + 1 - 1) + 79 =
      db (y - 1600) + gPrefixB (IsLeapYear y) m + (d - 1) := by
    have hs := hsum
    linarith
  rw [harg]
  exact gregFromDayNo_inv y m d h1 h2 h3 h4 hy

end Jalali

namespace Jalali

/-! ### Parse-back of formatted output and the round trip -/

/-- Unfolding of the time-part parser on exactly three colon-separated
fields: hour, minute and second are all parsed. -/
theorem ptop_eq3 (tp t0 t1 t2 : List Char)
    (hts : splitG ':' tp = [t0, t1, t2]) :
    parseTimeOfPart tp = (do
      let hour ← stoi t0
      let minute ← stoi t1
      let second ← stoi t2
      pure (hour, minute, second)) := by
  unfold parseTimeOfPart
  rw [hts]

/-- The date stage parses a zero-padded formatted date part back to its
numeric fields. -/
theorem parseDate_fmt (cs : List Char) (ts : List (List Char)) (jy jm jd : Int)
    (h1 : 0 ≤ jy) (h2 : 0 ≤ jm) (h3 : 0 ≤ jd)
    (hsp : splitG ' ' cs =
      (padC 4 jy ++ ('-' :: padC 2 jm) ++ ('-' :: padC 2 jd)) :: ts) :
    parseDateNums cs = .ok (jy, jm, jd) := by
  rw [parseDate_cons cs _ ts hsp, splitG_fmtDate jy jm jd h1 h2 h3, pdf3,
    stoi_padC 4 jy h1, stoi_padC 2 jm h2, stoi_padC 2 jd h3]
  rfl

/-- The time stage parses a zero-padded formatted time part back to its
numeric fields. -/
theorem parseTime_fmt (cs D : List Char) (hh mi sec : Int)
    (h1 : 0 ≤ hh) (h2 : 0 ≤ mi) (h3 : 0 ≤ sec)
    (hsp : splitG ' ' cs =
      [D, padC 2 hh ++ (':' :: padC 2 mi) ++ (':' :: padC 2 sec)]) :
    parseTimeNums cs = .ok (hh, mi, sec) := by
  rw [parseTime_cons cs D _ [] hsp,
    ptop_eq3 _ _ _ _ (splitG_fmtTime hh mi sec h1 h2 h3),
    stoi_padC 2 hh h1, stoi_padC 2 mi h2, stoi_padC 2 sec h3]
  rfl

/-- The Jalali year-start count grows at least 365 days per year. -/
theorem jdb_lb (x : Int) (h : 0 ≤ x) : 365 * x ≤ jdb x := by
  unfold jdb
  omega

/-- Sharper lower bound on the Jalali year-start count: on average a
Jalali year of the 33-year supercycle has 12053/33 days. -/
theorem jdb_lb2 (x : Int) (h : 0 ≤ x) : 12053 * x - 256 ≤ 33 * jdb x := by
  unfold jdb
  omega

/-- The numeric stage of `GregorianToJalali` inverts through the date
arithmetic of `JalaliToGregorian` on calendar-valid dates on or after
the anchor 1600-03-20, with bounded output fields. -/
theorem G2J_nums_inv (y m d : Int) (h1 : 1 ≤ m) (h2 : m ≤ 12) (h3 : 1 ≤ d)
    (h4 : d ≤ gMonthLen y m) (h6 : y ≤ 294247)
    (hA : 79 ≤ gDayNo y m d) :
    ∃ jy jm jd : Int,
      gregDateToJalaliNums y m d = .ok (jy, jm, jd) ∧
      jalaliNumsToGregDate jy jm jd = (y, m, d) ∧
      979 ≤ jy ∧ jy ≤ 999999 ∧ 1 ≤ jm ∧ jm ≤ 12 ∧ 1 ≤ jd ∧ jd ≤ 31 ∧
      (y ≤ 10500 → jy ≤ 9999) := by
  simp only [gDayNo] at hA
  have hmNat : ((m.toNat : Nat) : Int) = m := Int.toNat_of_nonneg (by omega)
  have hpre := gPrefixB_bounds (IsLeapYear y) m.toNat (by omega)
  rw [hmNat] at hpre
  have hmd := gMonthDays_bounds (IsLeapYear y) m.toNat (by omega)
  rw [hmNat] at hmd
  have hd31 : d ≤ 31 := le_trans h4 hmd.1
  have hy1600 : 1600 ≤ y := by
    by_contra hcon
    push_neg at hcon
    have hdb1 : db (y - 1600) ≤ db (-1) := db_mono (by omega)
    have hdb2 : db (-1) = -365 := by decide
    have hp2 := hpre.2
    linarith
  have hex1 : ∃ p, jYearSplit (db (y - 1600) + gPrefixB (IsLeapYear y) m + (d - 1) - 79)
      = p := ⟨_, rfl⟩
  obtain ⟨⟨jy, jdoy⟩, hsplit⟩ := hex1
  have hanchor : 0 ≤ db (y - 1600) + gPrefixB (IsLeapYear y) m + (d - 1) - 79 := by
    linarith
  obtain ⟨hjy979, hjdb, hjdoy0, hjdoy365⟩ := jYearSplit_char _ hanchor _ _ hsplit
  have hex2 : ∃ w, jMonthWalkGo 11 0 jdoy = w := ⟨_, rfl⟩
  obtain ⟨⟨i, r⟩, hwalk⟩ := hex2
  obtain ⟨hINV, hjy979b, hjm12, hjd1, hjd31⟩ :=
    jalaliNumsToGregDate_inv y m d h1 h2 h3 h4 hy1600 jy jdoy i r hsplit hwalk hanchor
  have hnums : gregDateToJalaliNums y m d = .ok (jy, (i : Int) + 1, r + 1) := by
    simp only [gregDateToJalaliNums, gMonthAcc_eq y m h1 h2, base_eq_db y hy1600,
      Except.bind, Bind.bind, Pure.pure, Except.pure]
    rw [hsplit]
    dsimp only
    rw [hwalk]
  have hlb := jdb_lb (jy - 979) (by omega)
  have hp2 := hpre.2
  have hjyB : jy ≤ 999999 := by
    have hdbU : db (y - 1600) ≤ db 292647 := db_mono (by omega)
    have hdbV : db 292647 = 106887122 := by decide
    linarith
  have hjyS : y ≤ 10500 → jy ≤ 9999 := by
    intro hy9
    have hdbU : db (y - 1600) ≤ db 8900 := db_mono (by omega)
    have hdbV : db 8900 = 3250659 := by decide
    have hlb2 := jdb_lb2 (jy - 979) (by omega)
    linarith
  exact ⟨jy, (i : Int) + 1, r + 1, hnums, hINV, hjy979b, hjyB, by omega, hjm12,
    hjd1, hjd31, hjyS⟩

end Jalali

namespace Jalali

/-- Master round-trip lemma: on a calendar-valid composed value whose
Gregorian date lies on or after the anchor 1600-03-20 (Gregorian day
number at least 79, i.e. nonnegative internal Jalali day number), the
composition of `GregorianToJalali` and `JalaliToGregorian` with
`end_of_day = false` returns the value truncated to whole seconds. -/
theorem roundTrip_ok (t : Timestamp) (hV : ValidTs t = true)
    (hA : 79 ≤ gDayNo t.year t.month t.day) :
    roundTrip t = .ok (truncSec t) := by
  obtain ⟨y, m, d, hh, mi, sec, us⟩ := t
  simp only [ValidTs, Bool.and_eq_true, decide_eq_true_eq, and_assoc] at hV
  obtain ⟨h1, h2, h3, h4, h5, h6, h7, h8, h9, h10, h11, h12, h13, h14⟩ := hV
  obtain ⟨jy, jm, jd, hnums, hINV, hjy979, hjy6, hjm1, hjm12, hjd1, hjd31, -⟩ :=
    G2J_nums_inv y m d h1 h2 h3 h4 h6 hA
  have h0jy : (0:Int) ≤ jy := by omega
  have h0jm : (0:Int) ≤ jm := by omega
  have h0jd : (0:Int) ≤ jd := by omega
  have hG2J : GregorianToJalali ⟨y, m, d, hh, mi, sec, us⟩ =
      .ok (String.mk (formatJalali jy jm jd hh mi sec us)) := by
    simp only [GregorianToJalali, Except.bind, Bind.bind, Pure.pure, Except.pure]
    rw [hnums]
  have hl4 : (padC 4 jy).length ≤ 6 := by
    refine padC_len_le 4 6 jy h0jy (by norm_num) (by norm_num) ?_
    have hp6 : (10:Nat) ^ 6 = 1000000 := by norm_num
    omega
  have hlm : (padC 2 jm).length ≤ 2 := by
    refine padC_len_le 2 2 jm h0jm (le_refl 2) (by norm_num) ?_
    have hp2 : (10:Nat) ^ 2 = 100 := by norm_num
    omega
  have hld : (padC 2 jd).length ≤ 2 := by
    refine padC_len_le 2 2 jd h0jd (le_refl 2) (by norm_num) ?_
    have hp2 : (10:Nat) ^ 2 = 100 := by norm_num
    omega
  have hDlen : (padC 4 jy ++ ('-' :: padC 2 jm) ++ ('-' :: padC 2 jd)).length ≤ 24 := by
    simp only [List.length_append, List.length_cons]
    omega
  have hDne : padC 4 jy ++ ('-' :: padC 2 jm) ++ ('-' :: padC 2 jd) ≠ [] := fun hD =>
    List.cons_ne_nil '-' (padC 2 jd) (List.append_eq_nil.mp hD).2
  have hspD : splitG ' ' (padC 4 jy ++ ('-' :: padC 2 jm) ++ ('-' :: padC 2 jd)) =
      [padC 4 jy ++ ('-' :: padC 2 jm) ++ ('-' :: padC 2 jd)] :=
    splitG_single ' ' _ hDne (fmtDate_no_space jy jm jd h0jy h0jm h0jd)
  by_cases hmid : hh = 0 ∧ mi = 0 ∧ sec = 0 ∧ us = 0
  · obtain ⟨rfl, rfl, rfl, rfl⟩ := hmid
    have hc : ((0:Int) = 0 ∧ (0:Int) = 0 ∧ (0:Int) = 0 ∧ (0:Int) = 0) :=
      ⟨rfl, rfl, rfl, rfl⟩
    have hfmt : formatJalali jy jm jd 0 0 0 0 =
        padC 4 jy ++ ('-' :: padC 2 jm) ++ ('-' :: padC 2 jd) := by
      simp only [formatJalali, if_pos hc]
      exact List.take_all_of_le hDlen
    have hpdD : parseDateNums (padC 4 jy ++ ('-' :: padC 2 jm) ++ ('-' :: padC 2 jd)) =
        Except.ok (jy, jm, jd) :=
      parseDate_fmt _ [] jy jm jd h0jy h0jm h0jd hspD
    have hpd : parseDateNums (String.mk (padC 4 jy ++ ('-' :: padC 2 jm) ++
        ('-' :: padC 2 jd))).data = Except.ok (jy, jm, jd) := hpdD
    have hptD : parseTimeNums (padC 4 jy ++ ('-' :: padC 2 jm) ++ ('-' :: padC 2 jd)) =
        Except.ok ((0:Int), (0:Int), (0:Int)) :=
      parseTime_notime _ (by rw [hspD]; simp)
    have hpt : parseTimeNums (String.mk (padC 4 jy ++ ('-' :: padC 2 jm) ++
        ('-' :: padC 2 jd))).data = Except.ok ((0:Int), (0:Int), (0:Int)) := hptD
    have hJ : JalaliToGregorian (String.mk (padC 4 jy ++ ('-' :: padC 2 jm) ++
        ('-' :: padC 2 jd))) false = .ok ⟨y, m, d, 0, 0, 0, 0⟩ := by
      unfold JalaliToGregorian
      rw [hpd]
      simp only [Bind.bind, Except.bind]
      rw [hpt]
      simp only [Bind.bind, Except.bind, Pure.pure, Except.pure]
      rw [hINV]
      rfl
    unfold roundTrip
    rw [hG2J]
    simp only [Except.bind]
    rw [hfmt]
    exact hJ
  · have hlh : (padC 2 hh).length ≤ 2 := by
      refine padC_len_le 2 2 hh h7 (le_refl 2) (by norm_num) ?_
      have hp2 : (10:Nat) ^ 2 = 100 := by norm_num
      omega
    have hlmi : (padC 2 mi).length ≤ 2 := by
      refine padC_len_le 2 2 mi h9 (le_refl 2) (by norm_num) ?_
      have hp2 : (10:Nat) ^ 2 = 100 := by norm_num
      omega
    have hlsec : (padC 2 sec).length ≤ 2 := by
      refine padC_len_le 2 2 sec h11 (le_refl 2) (by norm_num) ?_
      have hp2 : (10:Nat) ^ 2 = 100 := by norm_num
      omega
    have hFlen : (padC 4 jy ++ ('-' :: padC 2 jm) ++ ('-' :: padC 2 jd) ++
        (' ' :: padC 2 hh) ++ (':' :: padC 2 mi) ++ (':' :: padC 2 sec)).length ≤ 24 := by
      simp only [List.length_append, List.length_cons]
      omega
    have hfmt : formatJalali jy jm jd hh mi sec us =
        padC 4 jy ++ ('-' :: padC 2 jm) ++ ('-' :: padC 2 jd) ++
          (' ' :: padC 2 hh) ++ (':' :: padC 2 mi) ++ (':' :: padC 2 sec) := by
      simp only [formatJalali, if_neg hmid]
      exact List.take_all_of_le hFlen
    have hTne : padC 2 hh ++ (':' :: padC 2 mi) ++ (':' :: padC 2 sec) ≠ [] := fun hT =>
      List.cons_ne_nil ':' (padC 2 sec) (List.append_eq_nil.mp hT).2
    have hassoc : padC 4 jy ++ ('-' :: padC 2 jm) ++ ('-' :: padC 2 jd) ++
        (' ' :: padC 2 hh) ++ (':' :: padC 2 mi) ++ (':' :: padC 2 sec) =
        (padC 4 jy ++ ('-' :: padC 2 jm) ++ ('-' :: padC 2 jd)) ++
          ' ' :: (padC 2 hh ++ (':' :: padC 2 mi) ++ (':' :: padC 2 sec)) := by
      simp [List.append_assoc]
    have hspF : splitG ' ' (padC 4 jy ++ ('-' :: padC 2 jm) ++ ('-' :: padC 2 jd) ++
        (' ' :: padC 2 hh) ++ (':' :: padC 2 mi) ++ (':' :: padC 2 sec)) =
        [padC 4 jy ++ ('-' :: padC 2 jm) ++ ('-' :: padC 2 jd),
          padC 2 hh ++ (':' :: padC 2 mi) ++ (':' :: padC 2 sec)] := by
      rw [hassoc,
        splitG_append ' ' _ (fmtDate_no_space jy jm jd h0jy h0jm h0jd),
        splitG_single ' ' _ hTne (fmtTime_no_space hh mi sec h7 h9 h11)]
    have hpdD : parseDateNums (padC 4 jy ++ ('-' :: padC 2 jm) ++ ('-' :: padC 2 jd) ++
        (' ' :: padC 2 hh) ++ (':' :: padC 2 mi) ++ (':' :: padC 2 sec)) =
        Except.ok (jy, jm, jd) :=
      parseDate_fmt _ _ jy jm jd h0jy h0jm h0jd hspF
    have hpd : parseDateNums (String.mk (padC 4 jy ++ ('-' :: padC 2 jm) ++
        ('-' :: padC 2 jd) ++ (' ' :: padC 2 hh) ++ (':' :: padC 2 mi) ++
        (':' :: padC 2 sec))).data = Except.ok (jy, jm, jd) := hpdD
    have hptD : parseTimeNums (padC 4 jy ++ ('-' :: padC 2 jm) ++ ('-' :: padC 2 jd) ++
        (' ' :: padC 2 hh) ++ (':' :: padC 2 mi) ++ (':' :: padC 2 sec)) =
        Except.ok (hh, mi, sec) :=
      parseTime_fmt _ _ hh mi sec h7 h9 h11 hspF
    have hpt : parseTimeNums (String.mk (padC 4 jy ++ ('-' :: padC 2 jm) ++
        ('-' :: padC 2 jd) ++ (' ' :: padC 2 hh) ++ (':' :: padC 2 mi) ++
        (':' :: padC 2 sec))).data = Except.ok (hh, mi, sec) := hptD
    have hJ : JalaliToGregorian (String.mk (padC 4 jy ++ ('-' :: padC 2 jm) ++
        ('-' :: padC 2 jd) ++ (' ' :: padC 2 hh) ++ (':' :: padC 2 mi) ++
        (':' :: padC 2 sec))) false = .ok ⟨y, m, d, hh, mi, sec, 0⟩ := by
      unfold JalaliToGregorian
      rw [hpd]
      simp only [Bind.bind, Except.bind]
      rw [hpt]
      simp only [Bind.bind, Except.bind, Pure.pure, Except.pure]
      rw [hINV]
      rfl
    unfold roundTrip
    rw [hG2J]
    simp only [Except.bind]
    rw [hfmt]
    exact hJ

end Jalali

namespace Jalali

/-- C1 amended: for calendar-valid composed Gregorian values whose date
lies on or after the algorithm's anchor 1600-03-20 (Gregorian day
number at least 79, equivalently a nonnegative internal Jalali day
number), the round trip `JalaliToGregorian(GregorianToJalali(t), false)`
yields `t` truncated to whole seconds, and in particular yields `t`
itself whenever the microseconds are zero — which covers exact midnight.
The original unrestricted claim is false at the valid midnight value
1600-01-01, which round-trips to a format error; the anchor condition
here is sufficient but not necessary (both facts are in the
counterexample theorem, which also round-trips the pre-anchor date
1600-03-19 to itself). -/
theorem C1_round_trip (t : Timestamp) (hV : ValidTs t = true)
    (hA : 79 ≤ gDayNo t.year t.month t.day) :
    roundTrip t = .ok (truncSec t) ∧ (t.micros = 0 → roundTrip t = .ok t) := by
  refine ⟨roundTrip_ok t hV hA, fun hu => ?_⟩
  rw [roundTrip_ok t hV hA]
  obtain ⟨y, m, d, hh, mi, sec, us⟩ := t
  dsimp only at hu
  subst hu
  rfl

/-- C1 witness: the valid value 2021-03-21 05:06:07.123456 lies after
the anchor and the round trip returns it truncated to whole seconds. -/
theorem C1_witness :
    ValidTs ⟨2021, 3, 21, 5, 6, 7, 123456⟩ = true ∧
    79 ≤ gDayNo 2021 3 21 ∧
    roundTrip ⟨2021, 3, 21, 5, 6, 7, 123456⟩ = .ok ⟨2021, 3, 21, 5, 6, 7, 0⟩ :=
  ⟨by decide, by decide,
    (C1_round_trip ⟨2021, 3, 21, 5, 6, 7, 123456⟩ (by decide) (by decide)).1⟩

/-! ### Shape of the formatted output -/

/-- Two-element decomposition of a length-2 list. -/
theorem list_len2 (l : List Char) (h : l.length = 2) : ∃ a b, l = [a, b] := by
  cases l with
  | nil => simp at h
  | cons a l1 =>
    cases l1 with
    | nil => simp at h
    | cons b l2 =>
      cases l2 with
      | nil => exact ⟨a, b, rfl⟩
      | cons c l3 =>
        simp only [List.length_cons] at h
        omega

/-- Four-element decomposition of a length-4 list. -/
theorem list_len4 (l : List Char) (h : l.length = 4) : ∃ a b c d, l = [a, b, c, d] := by
  cases l with
  | nil => simp at h
  | cons a l1 =>
    cases l1 with
    | nil => simp at h
    | cons b l2 =>
      cases l2 with
      | nil => simp at h
      | cons c l3 =>
        cases l3 with
        | nil => simp at h
        | cons d l4 =>
          cases l4 with
          | nil => exact ⟨a, b, c, d, rfl⟩
          | cons e l5 =>
            simp only [List.length_cons] at h
            omega

/-- A zero-padded formatted date of exact field widths has the
`YYYY-MM-DD` shape. -/
theorem dateOnlyShape_fmt (jy jm jd : Int) (h1 : 0 ≤ jy) (h2 : 0 ≤ jm) (h3 : 0 ≤ jd)
    (l4 : (padC 4 jy).length = 4) (lm : (padC 2 jm).length = 2)
    (ld : (padC 2 jd).length = 2) :
    dateOnlyShape (padC 4 jy ++ ('-' :: padC 2 jm) ++ ('-' :: padC 2 jd)) = true := by
  obtain ⟨a1, a2, a3, a4, hY⟩ := list_len4 _ l4
  obtain ⟨b1, b2, hM⟩ := list_len2 _ lm
  obtain ⟨c1, c2, hD⟩ := list_len2 _ ld
  have hdY := padC_all 4 jy h1
  have hdM := padC_all 2 jm h2
  have hdD := padC_all 2 jd h3
  rw [hY] at hdY
  rw [hM] at hdM
  rw [hD] at hdD
  obtain ⟨e1, he1, rfl⟩ := hdY a1 (by simp)
  obtain ⟨e2, he2, rfl⟩ := hdY a2 (by simp)
  obtain ⟨e3, he3, rfl⟩ := hdY a3 (by simp)
  obtain ⟨e4, he4, rfl⟩ := hdY a4 (by simp)
  obtain ⟨f1, hf1, rfl⟩ := hdM b1 (by simp)
  obtain ⟨f2, hf2, rfl⟩ := hdM b2 (by simp)
  obtain ⟨g1, hg1, rfl⟩ := hdD c1 (by simp)
  obtain ⟨g2, hg2, rfl⟩ := hdD c2 (by simp)
  rw [hY, hM, hD]
  simp [dateOnlyShape, (digitChar_facts e1 he1).1, (digitChar_facts e2 he2).1,
    (digitChar_facts e3 he3).1, (digitChar_facts e4 he4).1,
    (digitChar_facts f1 hf1).1, (digitChar_facts f2 hf2).1,
    (digitChar_facts g1 hg1).1, (digitChar_facts g2 hg2).1]

set_option maxHeartbeats 2000000 in
/-- A zero-padded formatted date-time of exact field widths has the
`YYYY-MM-DD HH:MM:SS` shape. -/
theorem dateTimeShape_fmt (jy jm jd hh mi sec : Int)
    (h1 : 0 ≤ jy) (h2 : 0 ≤ jm) (h3 : 0 ≤ jd)
    (h4 : 0 ≤ hh) (h5 : 0 ≤ mi) (h6 : 0 ≤ sec)
    (l4 : (padC 4 jy).length = 4) (lm : (padC 2 jm).length = 2)
    (ld : (padC 2 jd).length = 2) (lh : (padC 2 hh).length = 2)
    (lmi : (padC 2 mi).length = 2) (ls : (padC 2 sec).length = 2) :
    dateTimeShape (padC 4 jy ++ ('-' :: padC 2 jm) ++ ('-' :: padC 2 jd) ++
      (' ' :: padC 2 hh) ++ (':' :: padC 2 mi) ++ (':' :: padC 2 sec)) = true := by
  obtain ⟨a1, a2, a3, a4, hY⟩ := list_len4 _ l4
  obtain ⟨b1, b2, hM⟩ := list_len2 _ lm
  obtain ⟨c1, c2, hD⟩ := list_len2 _ ld
  obtain ⟨u1, u2, hH⟩ := list_len2 _ lh
  obtain ⟨v1, v2, hMi⟩ := list_len2 _ lmi
  obtain ⟨w1, w2, hS⟩ := list_len2 _ ls
  have hdY := padC_all 4 jy h1
  have hdM := padC_all 2 jm h2
  have hdD := padC_all 2 jd h3
  have hdH := padC_all 2 hh h4
  have hdMi := padC_all 2 mi h5
  have hdS := padC_all 2 sec h6
  rw [hY] at hdY
  rw [hM] at hdM
  rw [hD] at hdD
  rw [hH] at hdH
  rw [hMi] at hdMi
  rw [hS] at hdS
  obtain ⟨e1, he1, rfl⟩ := hdY a1 (by simp)
  obtain ⟨e2, he2, rfl⟩ := hdY a2 (by simp)
  obtain ⟨e3, he3, rfl⟩ := hdY a3 (by simp)
  obtain ⟨e4, he4, rfl⟩ := hdY a4 (by simp)
  obtain ⟨f1, hf1, rfl⟩ := hdM b1 (by simp)
  obtain ⟨f2, hf2, rfl⟩ := hdM b2 (by simp)
  obtain ⟨g1, hg1, rfl⟩ := hdD c1 (by simp)
  obtain ⟨g2, hg2, rfl⟩ := hdD c2 (by simp)
  obtain ⟨p1, hp1, rfl⟩ := hdH u1 (by simp)
  obtain ⟨p2, hp2, rfl⟩ := hdH u2 (by simp)
  obtain ⟨q1, hq1, rfl⟩ := hdMi v1 (by simp)
  obtain ⟨q2, hq2, rfl⟩ := hdMi v2 (by simp)
  obtain ⟨s1, hs1, rfl⟩ := hdS w1 (by simp)
  obtain ⟨s2, hs2, rfl⟩ := hdS w2 (by simp)
  rw [hY, hM, hD, hH, hMi, hS]
  simp [dateTimeShape, dateOnlyShape, (digitChar_facts e1 he1).1,
    (digitChar_facts e2 he2).1, (digitChar_facts e3 he3).1, (digitChar_facts e4 he4).1,
    (digitChar_facts f1 hf1).1, (digitChar_facts f2 hf2).1,
    (digitChar_facts g1 hg1).1, (digitChar_facts g2 hg2).1,
    (digitChar_facts p1 hp1).1, (digitChar_facts p2 hp2).1,
    (digitChar_facts q1 hq1).1, (digitChar_facts q2 hq2).1,
    (digitChar_facts s1 hs1).1, (digitChar_facts s2 hs2).1]

/-- C6 amended: for calendar-valid composed values whose date lies on or
after the anchor 1600-03-20 and whose year is at most 10500 (a
sufficient bound keeping the emitted Jalali year at four digits, so the
24-character buffer does not truncate), `GregorianToJalali` emits a
string of the zero-padded shape `YYYY-MM-DD` when hour, minute, second
and microseconds are all zero, and of the shape `YYYY-MM-DD HH:MM:SS`
otherwise — in particular a value whose only non-zero component is the
microseconds still includes the time portion.  Some restriction of each
kind is needed, though neither boundary here is exact: the counterexample
theorem shows the shape violated at the pre-anchor date 1600-01-02
(negative day field) and at year 294000 (six-digit year field), but
satisfied at the pre-anchor date 1600-03-19. -/
theorem C6_output_shape (t : Timestamp) (hV : ValidTs t = true)
    (hA : 79 ≤ gDayNo t.year t.month t.day) (hY : t.year ≤ 10500) :
    ∃ cs : List Char, GregorianToJalali t = .ok (String.mk cs) ∧
      (t.hour = 0 ∧ t.minute = 0 ∧ t.second = 0 ∧ t.micros = 0 →
        dateOnlyShape cs = true) ∧
      (¬(t.hour = 0 ∧ t.minute = 0 ∧ t.second = 0 ∧ t.micros = 0) →
        dateTimeShape cs = true) := by
  obtain ⟨y, m, d, hh, mi, sec, us⟩ := t
  simp only [ValidTs, Bool.and_eq_true, decide_eq_true_eq, and_assoc] at hV
  obtain ⟨h1, h2, h3, h4, h5, h6, h7, h8, h9, h10, h11, h12, h13, h14⟩ := hV
  dsimp only at hY
  obtain ⟨jy, jm, jd, hnums, hINV, hjy979, hjy6, hjm1, hjm12, hjd1, hjd31, hjyS⟩ :=
    G2J_nums_inv y m d h1 h2 h3 h4 h6 hA
  have hjy9999 : jy ≤ 9999 := hjyS (by omega)
  have h0jy : (0:Int) ≤ jy := by omega
  have h0jm : (0:Int) ≤ jm := by omega
  have h0jd : (0:Int) ≤ jd := by omega
  have hG2J : GregorianToJalali ⟨y, m, d, hh, mi, sec, us⟩ =
      .ok (String.mk (formatJalali jy jm jd hh mi sec us)) := by
    simp only [GregorianToJalali, Except.bind, Bind.bind, Pure.pure, Except.pure]
    rw [hnums]
  have l4 : (padC 4 jy).length = 4 := by
    refine padC_len_exact 4 jy h0jy (decStr_len 4 jy.natAbs (by norm_num) ?_)
    have hp4 : (10:Nat) ^ 4 = 10000 := by norm_num
    omega
  have lm : (padC 2 jm).length = 2 := by
    refine padC_len_exact 2 jm h0jm (decStr_len 2 jm.natAbs (by norm_num) ?_)
    have hp2 : (10:Nat) ^ 2 = 100 := by norm_num
    omega
  have ld : (padC 2 jd).length = 2 := by
    refine padC_len_exact 2 jd h0jd (decStr_len 2 jd.natAbs (by norm_num) ?_)
    have hp2 : (10:Nat) ^ 2 = 100 := by norm_num
    omega
  by_cases hmid : hh = 0 ∧ mi = 0 ∧ sec = 0 ∧ us = 0
  · obtain ⟨rfl, rfl, rfl, rfl⟩ := hmid
    have hc : ((0:Int) = 0 ∧ (0:Int) = 0 ∧ (0:Int) = 0 ∧ (0:Int) = 0) :=
      ⟨rfl, rfl, rfl, rfl⟩
    have hDlen : (padC 4 jy ++ ('-' :: padC 2 jm) ++ ('-' :: padC 2 jd)).length ≤ 24 := by
      simp only [List.length_append, List.length_cons]
      omega
    have hfmt : formatJalali jy jm jd 0 0 0 0 =
        padC 4 jy ++ ('-' :: padC 2 jm) ++ ('-' :: padC 2 jd) := by
      simp only [formatJalali, if_pos hc]
      exact List.take_all_of_le hDlen
    rw [hfmt] at hG2J
    exact ⟨padC 4 jy ++ ('-' :: padC 2 jm) ++ ('-' :: padC 2 jd), hG2J,
      fun _ => dateOnlyShape_fmt jy jm jd h0jy h0jm h0jd l4 lm ld,
      fun hcon => absurd hc hcon⟩
  · have lh : (padC 2 hh).length = 2 := by
      refine padC_len_exact 2 hh h7 (decStr_len 2 hh.natAbs (by norm_num) ?_)
      have hp2 : (10:Nat) ^ 2 = 100 := by norm_num
      omega
    have lmi : (padC 2 mi).length = 2 := by
      refine padC_len_exact 2 mi h9 (decStr_len 2 mi.natAbs (by norm_num) ?_)
      have hp2 : (10:Nat) ^ 2 = 100 := by norm_num
      omega
    have ls : (padC 2 sec).length = 2 := by
      refine padC_len_exact 2 sec h11 (decStr_len 2 sec.natAbs (by norm_num) ?_)
      have hp2 : (10:Nat) ^ 2 = 100 := by norm_num
      omega
    have hFlen : (padC 4 jy ++ ('-' :: padC 2 jm) ++ ('-' :: padC 2 jd) ++
        (' ' :: padC 2 hh) ++ (':' :: padC 2 mi) ++ (':' :: padC 2 sec)).length ≤ 24 := by
      simp only [List.length_append, List.length_cons]
      omega
    have hfmt : formatJalali jy jm jd hh mi sec us =
        padC 4 jy ++ ('-' :: padC 2 jm) ++ ('-' :: padC 2 jd) ++
          (' ' :: padC 2 hh) ++ (':' :: padC 2 mi) ++ (':' :: padC 2 sec) := by
      simp only [formatJalali, if_neg hmid]
      exact List.take_all_of_le hFlen
    rw [hfmt] at hG2J
    exact ⟨padC 4 jy ++ ('-' :: padC 2 jm) ++ ('-' :: padC 2 jd) ++
        (' ' :: padC 2 hh) ++ (':' :: padC 2 mi) ++ (':' :: padC 2 sec), hG2J,
      fun hcon => absurd hcon hmid,
      fun _ => dateTimeShape_fmt jy jm jd hh mi sec h0jy h0jm h0jd h7 h9 h11
        l4 lm ld lh lmi ls⟩

/-- C6 witness: the valid value 2021-03-21 00:00:00.000001 — whose only
non-zero component is the microseconds — lies after the anchor with a
year within the bound, and its output has the date-time shape. -/
theorem C6_witness :
    ValidTs ⟨2021, 3, 21, 0, 0, 0, 1⟩ = true ∧
    79 ≤ gDayNo 2021 3 21 ∧ (2021 : Int) ≤ 10500 ∧
    ∃ cs : List Char, GregorianToJalali ⟨2021, 3, 21, 0, 0, 0, 1⟩ = .ok (String.mk cs) ∧
      dateTimeShape cs = true := by
  refine ⟨by decide, by decide, by decide, ?_⟩
  obtain ⟨cs, hcs, -, ht⟩ :=
    C6_output_shape ⟨2021, 3, 21, 0, 0, 0, 1⟩ (by decide) (by decide) (by decide)
  exact ⟨cs, hcs, ht (by decide)⟩

end Jalali
